import Mathlib

/-!
Shallow embedding of the `dirnum` directory-numbering utility.

The embedding follows the current pipeline of the repository:
`ParseFileName` and the render method `String` (fileNamePieces.go),
`ValidateFileNames` / `validateMajor` (validation.go), and
`ComputeRenames` together with its helpers `parseFileNames`,
`computeDigitCounts`, `renumberMinorVersions` and `changedNames`
(the variant whose gap-filling pass backtracks with `groupStart`
and then replays forward, i.e. the one exercised by main_test.go).

Go `int` values are modelled as `Int`.  The one place the source
depends on the machine width - `strconv.Atoi` failing on numbers that
do not fit in a 64-bit `int` - is modelled by the explicit `maxInt`
bound in `ParseFileName`; the arithmetic after parsing (digit counts,
renumbering) stays far below that bound.  Go slices become `List`s, the
`map[int]int` of minor digit counts becomes a total function
`Int → Nat` whose value at an absent key is `0`, matching Go's zero
value.  Functions that Go writes as index-mutating loops are written
with an explicit fuel argument equal to a list length so that every
definition is structurally recursive and kernel-evaluable.
-/

/-- Sentinel used by the source for "this file has no minor version"
(`const NoMinorVersion = -99` in fileNamePieces.go). -/
def NoMinorVersion : Int := -99

/-- The pieces of a parsed file name, mirroring the Go struct
`FileNamePieces`.  `descriptor` keeps its leading dash, exactly as the
third capture group of the file-name regular expression does. -/
structure FileNamePieces where
  major : Int
  minor : Int
  majorDigits : Nat
  minorDigits : Nat
  originalName : String
  descriptor : String
  extension : String
deriving Repr, DecidableEq

/-- One proposed rename, mirroring the Go struct `RenameEntry`. -/
structure RenameEntry where
  oldName : String
  newName : String
deriving Repr, DecidableEq

/-- The decimal digit character for `n % 10`. -/
def digitChar (n : Nat) : Char := Char.ofNat (48 + n % 10)

/-- Fuel-driven core of decimal printing (the loop inside
`strconv.Itoa`): emits the digits of `n` in front of `acc`.  The fuel
only needs to dominate the number of digits of `n`. -/
def natToDigitsAux : Nat → Nat → List Char → List Char
  | 0, _, acc => acc
  | fuel + 1, n, acc =>
    if n < 10 then digitChar n :: acc
    else natToDigitsAux fuel (n / 10) (digitChar n :: acc)

/-- Decimal digit list of a natural number, most significant first. -/
def natToDigits (n : Nat) : List Char := natToDigitsAux (n + 1) n []

/-- `strconv.Itoa`: decimal rendering of an integer. -/
def Itoa (i : Int) : String :=
  if i < 0 then "-" ++ (natToDigits (-i).toNat).asString
  else (natToDigits i.toNat).asString

/-- `prependZeroes` from fileNamePieces.go.  The Go loop prepends one
`"0"` at a time while the length is below `l`; its result is exactly
`l - n.length` zeroes in front of `n`. -/
def prependZeroes (n : String) (l : Nat) : String :=
  String.mk (List.replicate (l - n.length) '0' ++ n.data)

/-- The render method `func (f *FileNamePieces) String() string`:
zero-padded major, then `-` and the zero-padded minor when present,
then the descriptor verbatim (it carries its own dash), then `.` and
the extension. -/
def FileNamePieces.String (f : FileNamePieces) : String :=
  prependZeroes (Itoa f.major) f.majorDigits
    ++ (if f.minor ≠ NoMinorVersion then "-" ++ prependZeroes (Itoa f.minor) f.minorDigits else "")
    ++ f.descriptor
    ++ "."
    ++ f.extension

/-- Numeric value of a decimal digit character. -/
def digitVal (c : Char) : Nat := c.toNat - 48

/-- Value of a list of decimal digit characters (`strconv.Atoi` on the
all-digit strings produced by the regular expression's capture
groups). -/
def digitsVal (ds : List Char) : Nat := ds.foldl (fun a c => a * 10 + digitVal c) 0

/-- The optional second capture group `(-[0-9]+)?` of the file-name
regular expression: a dash followed by a maximal nonempty run of
digits.  Returns the matched group (with its dash) and the rest; the
group is empty when the input does not start with `-digit`. -/
def splitMinor : List Char → List Char × List Char
  | c1 :: c2 :: rest =>
    if c1 = '-' ∧ c2.isDigit = true then
      ('-' :: (c2 :: rest).takeWhile Char.isDigit, (c2 :: rest).dropWhile Char.isDigit)
    else ([], c1 :: c2 :: rest)
  | cs => ([], cs)

/-- The optional third capture group `(-[A-Za-z][A-Za-z0-9]+)?`: a dash,
a letter, then a maximal nonempty alphanumeric run.  When the input
starts with a dash that cannot open a valid group the whole match
fails (the mandatory `\.` cannot match a dash), hence `none`. -/
def splitTag : List Char → Option (List Char × List Char)
  | c1 :: c2 :: rest =>
    if c1 = '-' then
      if c2.isAlpha = true then
        if (rest.takeWhile Char.isAlphanum).isEmpty then none
        else some ('-' :: c2 :: rest.takeWhile Char.isAlphanum, rest.dropWhile Char.isAlphanum)
      else none
    else some ([], c1 :: c2 :: rest)
  | cs => some ([], cs)

/-- The tail `\.(jpg|png|gif)$` of the file-name regular expression:
a period followed by exactly one of the allowed extensions and the end
of the string. -/
def extOf : List Char → Option (List Char)
  | c :: rest =>
    if c = '.' ∧ (rest = ['j', 'p', 'g'] ∨ rest = ['p', 'n', 'g'] ∨ rest = ['g', 'i', 'f']) then
      some rest
    else none
  | [] => none

/-- `fileRegEx.FindStringSubmatch` for
`^([0-9]+)(-[0-9]+)?(-[A-Za-z][A-Za-z0-9]+)?\.(jpg|png|gif)$`:
the four capture groups, or `none` when the name does not match.  The
greedy left-to-right split is equivalent to the regular expression
because no backtracking can ever help: after a maximal digit run the
next character is not a digit, so a shorter group 1 or 2 leaves a
digit where `-`, a letter or `.` is required, and a shorter group 3
leaves an alphanumeric character where `.` is required. -/
def parseGroups (cs : List Char) : Option (List Char × List Char × List Char × List Char) :=
  if (cs.takeWhile Char.isDigit).isEmpty then none
  else
    match splitMinor (cs.dropWhile Char.isDigit) with
    | (g2, r2) =>
      match splitTag r2 with
      | none => none
      | some (g3, r3) =>
        match extOf r3 with
        | none => none
        | some g4 => some (cs.takeWhile Char.isDigit, g2, g3, g4)

/-- The largest value of Go's `int` type on the 64-bit platforms the
program targets.  `strconv.Atoi` fails exactly when its argument does
not fit in `int`; the numeric capture groups are all-digit
(non-negative), so only this upper bound can be exceeded. -/
def maxInt : Nat := 2 ^ 63 - 1

/-- `ParseFileName` from fileNamePieces.go.  On a regular-expression
match it runs `strconv.Atoi` on the numeric groups - failing with the
`"Invalid major version"` / `"Invalid minor version"` errors when a
value does not fit in `int` - and builds the descriptor: major and
minor are the decimal values of their groups (`NoMinorVersion` when
group 2 is absent), the digit counts are the lengths of
`strconv.Itoa` of those values (`0` for an absent minor), the
descriptor and extension are the groups verbatim and `originalName`
is the input.  On a failed match it returns the `"Bad filename"`
error carrying the offending string. -/
def ParseFileName (f : String) : Except String FileNamePieces :=
  match parseGroups f.data with
  | none => .error ("Bad filename: " ++ f)
  | some (g1, g2, g3, g4) =>
    if maxInt < digitsVal g1 then
      .error ("Invalid major version \"" ++ g1.asString ++ "\": " ++ f)
    else if g2.isEmpty = false ∧ maxInt < digitsVal (g2.drop 1) then
      .error ("Invalid minor version \"" ++ (g2.drop 1).asString ++ "\": " ++ f)
    else
    let major : Int := (digitsVal g1 : Nat)
    let minor : Int := if g2.isEmpty then NoMinorVersion else (digitsVal (g2.drop 1) : Nat)
    .ok
      { major := major
        minor := minor
        majorDigits := (Itoa major).length
        minorDigits := if minor = NoMinorVersion then 0 else (Itoa minor).length
        originalName := f
        descriptor := g3.asString
        extension := g4.asString }

/-- The order on descriptors implemented by `PFnpSlice.Less`: by major
version, then by minor version (`NoMinorVersion = -99` therefore sorts
below every explicit minor). -/
def fnpLe (a b : FileNamePieces) : Prop :=
  a.major < b.major ∨ (a.major = b.major ∧ a.minor ≤ b.minor)

instance : DecidableRel fnpLe := fun a b => by unfold fnpLe; infer_instance

instance : IsTotal FileNamePieces fnpLe := ⟨by intro a b; unfold fnpLe; omega⟩

instance : IsTrans FileNamePieces fnpLe := ⟨by intro a b c; unfold fnpLe; omega⟩

/-- `parseFileNames`: parse every name, silently dropping the ones that
do not parse, then sort by major/minor version (`sort.Sort(files)`). -/
def parseFileNames (fileNames : List String) : List FileNamePieces :=
  List.insertionSort fnpLe (fileNames.filterMap fun f => (ParseFileName f).toOption)

/-- `computeDigitCounts`: the maximal major digit count over all files,
and for each major version the maximal minor digit count among its
files (the Go `map[int]int` is modelled as a total function that is
`0` on absent keys, Go's zero value). -/
def computeDigitCounts (files : List FileNamePieces) : Nat × (Int → Nat) :=
  (files.foldl (fun a f => Nat.max a f.majorDigits) 0,
   fun m => (files.filter fun f => f.major == m).foldl (fun a f => Nat.max a f.minorDigits) 0)

/-- The loop body of `renumberMinorVersions`, carrying the previous
file's major version and its already-updated minor version.  The first
file of a run gets `NoMinorVersion` when it is alone in its run and
`0` otherwise; every later file of the run gets the previous minor
plus one.  Digit counts are overwritten from `computeDigitCounts`. -/
def renumberFrom (majorDigits : Nat) (minorDigits : Int → Nat) :
    Int → Int → List FileNamePieces → List FileNamePieces
  | _, _, [] => []
  | previousMajor, prevMinor, f :: rest =>
    let newMinor : Int :=
      if f.major ≠ previousMajor then
        match rest with
        | [] => NoMinorVersion
        | g :: _ => if f.major ≠ g.major then NoMinorVersion else 0
      else prevMinor + 1
    { f with majorDigits := majorDigits, minorDigits := minorDigits f.major, minor := newMinor }
      :: renumberFrom majorDigits minorDigits f.major newMinor rest

/-- `renumberMinorVersions` from the planner: normalize digit counts
and renumber every minor version.  `previousMajor` starts at the
sentinel, which no parsed file's major version (always `≥ 0`) can
equal. -/
def renumberMinorVersions (files : List FileNamePieces) : List FileNamePieces :=
  renumberFrom (computeDigitCounts files).1 (computeDigitCounts files).2 NoMinorVersion 0 files

/-- Major version at index `i` of the descriptor slice.  The Go code
only indexes in bounds (out of bounds it panics, which
`ComputeRenames` models separately); the `0` default is never
reached from the call sites proved about. -/
def majorAt (files : List FileNamePieces) (i : Nat) : Int :=
  match files.get? i with
  | some f => f.major
  | none => 0

/-- The inner backtracking loop of the gap-filling pass
(`for ; majorIdx > 0 && files[majorIdx-1].major == files[majorIdx].major; majorIdx--`):
the first index of the run of equal majors that contains `m`. -/
def groupStart (files : List FileNamePieces) : Nat → Nat
  | 0 => 0
  | m + 1 => if majorAt files m = majorAt files (m + 1) then groupStart files m else m + 1

/-- The outer backtracking loop of the gap-filling pass: for each
unused number in turn, stop when the index has reached `0` or the
unused number exceeds the major at the index, otherwise step to just
before the current run of equal majors. -/
def backtrackIdx (files : List FileNamePieces) : List Int → Int → Int
  | [], majorIdx => majorIdx
  | u :: rest, majorIdx =>
    if majorIdx ≤ 0 then majorIdx
    else if u > majorAt files majorIdx.toNat then majorIdx
    else backtrackIdx files rest ((groupStart files majorIdx.toNat : Int) - 1)

/-- The index at which the forward renaming loop starts: the
backtracking result, undone by one step (`if majorIdx < len(files)-1 { majorIdx++ }`). -/
def fillStart (files : List FileNamePieces) (unused : List Int) : Int :=
  let majorIdx := backtrackIdx files unused ((files.length : Int) - 1)
  if majorIdx < (files.length : Int) - 1 then majorIdx + 1 else majorIdx

/-- The forward renaming loop of the gap-filling pass, on the suffix
starting at `fillStart`: pop the next unused number; stop when the
descriptors are exhausted or the unused number exceeds the major at
the front; otherwise give the whole front run of equal majors that
unused number as its new major and continue.  The fuel argument is the
length of the descriptor list (each step consumes at least the front
descriptor). -/
def assignGroupsAux : Nat → List Int → List FileNamePieces → List FileNamePieces
  | 0, _, files => files
  | _ + 1, [], files => files
  | _ + 1, _ :: _, [] => []
  | fuel + 1, u :: urest, f :: fs =>
    if u > f.major then f :: fs
    else
      ({ f with major := u } :: (fs.takeWhile fun g => g.major == f.major).map fun g => { g with major := u })
        ++ assignGroupsAux fuel urest (fs.dropWhile fun g => g.major == f.major)

/-- The forward renaming loop, fuel instantiated. -/
def assignGroups (unused : List Int) (files : List FileNamePieces) : List FileNamePieces :=
  assignGroupsAux files.length unused files

/-- The whole gap-filling pass of `ComputeRenames`: descriptors before
`fillStart` are untouched, the suffix is fed to the forward renaming
loop. -/
def fillGaps (files : List FileNamePieces) (unused : List Int) : List FileNamePieces :=
  files.take (fillStart files unused).toNat
    ++ assignGroups unused (files.drop (fillStart files unused).toNat)

/-- `changedNames`: the files whose rendered name differs from the
original one, in slice order. -/
def changedNames (files : List FileNamePieces) : List RenameEntry :=
  files.filterMap fun f =>
    if f.originalName ≠ f.String then some ⟨f.originalName, f.String⟩ else none

/-- `ComputeRenames`: parse and sort, renumber minor versions, fill the
gaps in major versions, and report every changed name.  When no name
parses while `unused` is nonempty the Go code indexes `files[-1]`
(`majorIdx` is `-1` and `majorIdx >= len(files)` is false) and panics;
that case is modelled as `none`. -/
def ComputeRenames (fileNames : List String) (unused : List Int) : Option (List RenameEntry) :=
  let files := parseFileNames fileNames
  if files.isEmpty && !unused.isEmpty then none
  else some (changedNames (fillGaps (renumberMinorVersions files) unused))

example : ComputeRenames ["1.jpg"] [0] = some [⟨"1.jpg", "0.jpg"⟩] := by decide

example :
    ComputeRenames ["1.jpg", "2-Foo.jpg", "5-0-Foo.jpg", "5-1.jpg", "5-2.jpg", "6.jpg"] [0, 3, 4] =
      some [⟨"5-0-Foo.jpg", "0-0-Foo.jpg"⟩, ⟨"5-1.jpg", "0-1.jpg"⟩, ⟨"5-2.jpg", "0-2.jpg"⟩,
        ⟨"6.jpg", "3.jpg"⟩] := by decide

/-- The list of integers `s, s+1, ...` of the given length (the body of
the `for i := start; i < n; i++` accumulation in `validateMajor`). -/
def intRangeAux : Nat → Int → List Int
  | 0, _ => []
  | k + 1, s => s :: intRangeAux k (s + 1)

/-- `intRange s t` is the ascending list of integers `i` with
`s ≤ i < t` (empty when `t ≤ s`). -/
def intRange (s t : Int) : List Int := intRangeAux (t - s).toNat s

/-- The unused-number accumulation of `validateMajor` (validation.go):
scan the ascending distinct major versions; whenever the next one is
not exactly `prev + 1`, record every integer from `max (prev+1) 0` up
to (excluding) the next one.  The `max` with `0` is Go's
`if start < 0 { start = 0 }` clamp for the initial `prev = -1`. -/
def validateMajorUnused : Int → List Int → List Int
  | _, [] => []
  | prev, n :: rest =>
    (if n ≠ prev + 1 then intRange (max (prev + 1) 0) n else []) ++ validateMajorUnused n rest

/-- The distinct major versions of the parseable file names, in first
occurrence order: the key set of the `seenMajorMinor` map built by
`ValidateFileNames` (a key is created for every successfully parsed
file, also when the file later collides on its major/minor slot). -/
def seenMajors (files : List String) : List Int :=
  ((files.filterMap fun f => (ParseFileName f).toOption).map (·.major)).dedup

/-- The `sort.Ints(major)` step of `ValidateFileNames`. -/
def sortedMajors (files : List String) : List Int :=
  List.insertionSort (· ≤ ·) (seenMajors files)

/-- The unused-majors component of `ValidateFileNames`: run
`validateMajor` on the sorted distinct majors (with initial
`prev = -1`) and sort the result (`sort.Ints(unused)`). -/
def validateFileNamesUnused (files : List String) : List Int :=
  List.insertionSort (· ≤ ·) (validateMajorUnused (-1) (sortedMajors files))

example : validateFileNamesUnused ["2.jpg"] = [0, 1] := by decide
example : validateFileNamesUnused ["9.jpg", "10.jpg"] = [0, 1, 2, 3, 4, 5, 6, 7, 8] := by decide
example : validateFileNamesUnused ["0.jpg", "1.jpg"] = [] := by decide
example : validateFileNamesUnused ["1.jpg", "2-Foo.jpg", "5-0-Foo.jpg", "5-1.jpg", "5-2.jpg", "6.jpg"]
    = [0, 3, 4] := by decide

/-- Every descriptor produced by the renumbering loop carries the digit
counts it was invoked with: the global major digit count, and the
per-major minor digit count looked up at the descriptor's own (unchanged)
major version. -/
theorem renumberFrom_mem_digits (D : Nat) (Dm : Int → Nat) :
    ∀ (l : List FileNamePieces) (p pm : Int) (f : FileNamePieces),
      f ∈ renumberFrom D Dm p pm l → f.majorDigits = D ∧ f.minorDigits = Dm f.major := by
  intro l
  induction l with
  | nil => intro p pm f h; simp [renumberFrom] at h
  | cons g rest ih =>
    intro p pm f h
    rw [renumberFrom.eq_def] at h
    rcases List.mem_cons.mp h with h | h
    · subst h; exact ⟨rfl, rfl⟩
    · exact ih _ _ _ h

/-- Claim C1: on the file names `1.jpg, 2-Foo.jpg, 5-0-Foo.jpg, 5-1.jpg,
5-2.jpg, 6.jpg` with unused majors `0, 3, 4`, `ComputeRenames` returns
exactly the four renames `5-0-Foo.jpg→0-0-Foo.jpg`, `5-1.jpg→0-1.jpg`,
`5-2.jpg→0-2.jpg` and `6.jpg→3.jpg`: the whole major-5 group moves to
unused slot 0, the major-6 file moves to slot 3, and `1.jpg` and
`2-Foo.jpg` are untouched. -/
theorem computeRenames_fill_gaps_example :
    ComputeRenames ["1.jpg", "2-Foo.jpg", "5-0-Foo.jpg", "5-1.jpg", "5-2.jpg", "6.jpg"] [0, 3, 4] =
      some [⟨"5-0-Foo.jpg", "0-0-Foo.jpg"⟩, ⟨"5-1.jpg", "0-1.jpg"⟩, ⟨"5-2.jpg", "0-2.jpg"⟩,
        ⟨"6.jpg", "3.jpg"⟩] := by decide

/-- Claim C2, failing input: for the file names `9.jpg, 10.jpg` the
validator reports unused majors `0..8`, and the gap-filling pass then
moves only the major-10 group to slot `0` while the major-9 group keeps
its major version (after zero-padding, `9.jpg` is merely rewritten to
`09.jpg`).  The occupied major versions afterwards are `{0, 9}`: the
pass did not make the sequence contiguous (slots 1..8 stay empty), and
the smallest suffix that would have done so is the whole two-group
list, moving to `{0, 1}`. -/
theorem computeRenames_leaves_gaps :
    validateFileNamesUnused ["9.jpg", "10.jpg"] = [0, 1, 2, 3, 4, 5, 6, 7, 8] ∧
      ComputeRenames ["9.jpg", "10.jpg"] [0, 1, 2, 3, 4, 5, 6, 7, 8] =
        some [⟨"9.jpg", "09.jpg"⟩, ⟨"10.jpg", "00.jpg"⟩] ∧
      (fillGaps (renumberMinorVersions (parseFileNames ["9.jpg", "10.jpg"]))
          [0, 1, 2, 3, 4, 5, 6, 7, 8]).map (·.major) = [9, 0] := by
  refine ⟨by decide, by decide, by decide⟩

/-- Claim C4: the renumbering pass gives every descriptor the global
maximal major digit count and the maximal minor digit count among
descriptors sharing its major version (both maxima as computed by
`computeDigitCounts` on the parsed input); and concretely, on the
eleven files `0.jpg..10.jpg` with no unused majors, the ten one-digit
names are renamed to their two-digit forms and `10.jpg` is unchanged. -/
theorem renumber_digit_widths :
    (∀ (names : List String) (f : FileNamePieces),
        f ∈ renumberMinorVersions (parseFileNames names) →
          f.majorDigits = (computeDigitCounts (parseFileNames names)).1 ∧
            f.minorDigits = (computeDigitCounts (parseFileNames names)).2 f.major) ∧
      ComputeRenames
          ["0.jpg", "1.jpg", "2.jpg", "3.jpg", "4.jpg", "5.jpg", "6.jpg", "7.jpg", "8.jpg",
            "9.jpg", "10.jpg"] [] =
        some [⟨"0.jpg", "00.jpg"⟩, ⟨"1.jpg", "01.jpg"⟩, ⟨"2.jpg", "02.jpg"⟩, ⟨"3.jpg", "03.jpg"⟩,
          ⟨"4.jpg", "04.jpg"⟩, ⟨"5.jpg", "05.jpg"⟩, ⟨"6.jpg", "06.jpg"⟩, ⟨"7.jpg", "07.jpg"⟩,
          ⟨"8.jpg", "08.jpg"⟩, ⟨"9.jpg", "09.jpg"⟩] := by
  constructor
  · intro names f h
    exact renumberFrom_mem_digits _ _ _ _ _ _ h
  · decide

/-- Witness for claim C4: the descriptor of `3.jpg` in the renumbered
list for `3.jpg, 10.jpg` indeed carries the global major digit count 2
and minor digit count 0. -/
theorem renumber_digit_widths_witness :
    ({ major := 3, minor := -99, majorDigits := 2, minorDigits := 0, originalName := "3.jpg",
        descriptor := "", extension := "jpg" } : FileNamePieces) ∈
        renumberMinorVersions (parseFileNames ["3.jpg", "10.jpg"]) ∧
      ({ major := 3, minor := -99, majorDigits := 2, minorDigits := 0, originalName := "3.jpg",
          descriptor := "", extension := "jpg" } : FileNamePieces).majorDigits =
          (computeDigitCounts (parseFileNames ["3.jpg", "10.jpg"])).1 ∧
        ({ major := 3, minor := -99, majorDigits := 2, minorDigits := 0, originalName := "3.jpg",
            descriptor := "", extension := "jpg" } : FileNamePieces).minorDigits =
          (computeDigitCounts (parseFileNames ["3.jpg", "10.jpg"])).2 3 :=
  ⟨by decide, renumber_digit_widths.1 ["3.jpg", "10.jpg"] _ (by decide)⟩

/-- An alphabetic character is not a digit (the character classes
`[A-Za-z]` and `[0-9]` are disjoint). -/
theorem isDigit_eq_false_of_isAlpha {c : Char} (h : c.isAlpha = true) : c.isDigit = false := by
  simp only [Char.isAlpha, Char.isUpper, Char.isLower, Char.isDigit, Bool.or_eq_true,
    Bool.and_eq_true, decide_eq_true_eq, Bool.and_eq_false_iff, decide_eq_false_iff_not, not_le,
    Char.le_def, UInt32.le_def, BitVec.le_def,
    show (UInt32.toBitVec 48).toNat = 48 from rfl, show (UInt32.toBitVec 57).toNat = 57 from rfl,
    show (UInt32.toBitVec 65).toNat = 65 from rfl, show (UInt32.toBitVec 90).toNat = 90 from rfl,
    show (UInt32.toBitVec 97).toNat = 97 from rfl,
    show (UInt32.toBitVec 122).toNat = 122 from rfl] at *
  omega

/-- The digit character of `n` is in the `[0-9]` class. -/
theorem digitChar_isDigit (n : Nat) : (digitChar n).isDigit = true := by
  have hk : n % 10 < 10 := Nat.mod_lt _ (by norm_num)
  unfold digitChar
  interval_cases h : n % 10 <;> decide

/-- The numeric value of the digit character of `n` is `n % 10`. -/
theorem digitVal_digitChar (n : Nat) : digitVal (digitChar n) = n % 10 := by
  have hk : n % 10 < 10 := Nat.mod_lt _ (by norm_num)
  unfold digitChar digitVal
  interval_cases h : n % 10 <;> decide

/-- The digit-printing loop only grows the accumulator in front. -/
theorem natToDigitsAux_append :
    ∀ (fuel n : Nat) (acc : List Char),
      natToDigitsAux fuel n acc = natToDigitsAux fuel n [] ++ acc := by
  intro fuel
  induction fuel with
  | zero => intro n acc; simp [natToDigitsAux]
  | succ fuel ih =>
    intro n acc
    by_cases h : n < 10
    · simp [natToDigitsAux, h]
    · rw [natToDigitsAux, if_neg h, natToDigitsAux, if_neg h, ih _ (digitChar n :: acc),
        ih _ [digitChar n], List.append_assoc]
      rfl

/-- Any fuel large enough to cover the digits of `n` gives the same
digit list. -/
theorem natToDigitsAux_congr :
    ∀ (n fuel fuel' : Nat), 0 < fuel → 0 < fuel' → n < 10 ^ fuel → n < 10 ^ fuel' →
      natToDigitsAux fuel n [] = natToDigitsAux fuel' n [] := by
  intro n
  induction n using Nat.strong_induction_on with
  | _ n ih =>
    intro fuel fuel' hf hf' hn hn'
    obtain ⟨f, rfl⟩ : ∃ f, fuel = f + 1 := ⟨fuel - 1, by omega⟩
    obtain ⟨f', rfl⟩ : ∃ f', fuel' = f' + 1 := ⟨fuel' - 1, by omega⟩
    by_cases h : n < 10
    · rw [natToDigitsAux, if_pos h, natToDigitsAux, if_pos h]
    · have hten : (10 : Nat) ≤ n := by omega
      have hfpos : 0 < f := by
        by_contra hc
        have : f = 0 := by omega
        subst this
        simp at hn
        omega
      have hfpos' : 0 < f' := by
        by_contra hc
        have : f' = 0 := by omega
        subst this
        simp at hn'
        omega
      have hdiv : n / 10 < n := Nat.div_lt_self (by omega) (by norm_num)
      have hb : n / 10 < 10 ^ f := by
        rw [Nat.div_lt_iff_lt_mul (by norm_num)]
        calc n < 10 ^ (f + 1) := hn
        _ = 10 ^ f * 10 := by ring
      have hb' : n / 10 < 10 ^ f' := by
        rw [Nat.div_lt_iff_lt_mul (by norm_num)]
        calc n < 10 ^ (f' + 1) := hn'
        _ = 10 ^ f' * 10 := by ring
      rw [natToDigitsAux, if_neg h, natToDigitsAux, if_neg h,
        natToDigitsAux_append f, natToDigitsAux_append f',
        ih (n / 10) hdiv f f' hfpos hfpos' hb hb']

/-- Every natural number is below `10 ^ (n + 1)`. -/
theorem lt_ten_pow_succ (n : Nat) : n < 10 ^ (n + 1) :=
  calc n < 10 ^ n := Nat.lt_pow_self (by norm_num) n
  _ ≤ 10 ^ (n + 1) := Nat.pow_le_pow_right (by norm_num) (by omega)

/-- Digit list of a one-digit number. -/
theorem natToDigits_lt (n : Nat) (h : n < 10) : natToDigits n = [digitChar n] := by
  rw [natToDigits, natToDigitsAux, if_pos h]

/-- Digit list of a number of at least two digits: the digits of
`n / 10` followed by the last digit. -/
theorem natToDigits_ge (n : Nat) (h : 10 ≤ n) :
    natToDigits n = natToDigits (n / 10) ++ [digitChar n] := by
  rw [natToDigits, natToDigitsAux, if_neg (by omega), natToDigitsAux_append]
  congr 1
  exact natToDigitsAux_congr (n / 10) n (n / 10 + 1) (by omega) (by omega)
    (by
      rw [Nat.div_lt_iff_lt_mul (by norm_num)]
      calc n < 10 ^ (n + 1) := lt_ten_pow_succ n
      _ ≤ 10 ^ n * 10 := by rw [pow_succ])
    (lt_ten_pow_succ _)

/-- The digit list of a natural number is never empty. -/
theorem natToDigits_ne_nil (n : Nat) : natToDigits n ≠ [] := by
  by_cases h : n < 10
  · rw [natToDigits_lt n h]; simp
  · rw [natToDigits_ge n (by omega)]; simp

/-- Every character of a digit list is a digit. -/
theorem mem_natToDigits_isDigit (n : Nat) : ∀ c ∈ natToDigits n, c.isDigit = true := by
  induction n using Nat.strong_induction_on with
  | _ n ih =>
    by_cases h : n < 10
    · rw [natToDigits_lt n h]
      intro c hc
      rw [List.mem_singleton] at hc
      subst hc
      exact digitChar_isDigit n
    · rw [natToDigits_ge n (by omega)]
      intro c hc
      rcases List.mem_append.mp hc with hc | hc
      · exact ih (n / 10) (Nat.div_lt_self (by omega) (by norm_num)) c hc
      · rw [List.mem_singleton] at hc
        subst hc
        exact digitChar_isDigit n

/-- Evaluating the digit accumulation over the digit list of `n` from
accumulator `a` scales `a` by the digit count and adds `n`. -/
theorem foldl_natToDigits (n : Nat) :
    ∀ a : Nat,
      (natToDigits n).foldl (fun a c => a * 10 + digitVal c) a =
        a * 10 ^ (natToDigits n).length + n := by
  induction n using Nat.strong_induction_on with
  | _ n ih =>
    intro a
    by_cases h : n < 10
    · rw [natToDigits_lt n h]
      simp [List.foldl, digitVal_digitChar, Nat.mod_eq_of_lt h]
    · rw [natToDigits_ge n (by omega), List.foldl_append, List.length_append,
        ih (n / 10) (Nat.div_lt_self (by omega) (by norm_num)) a]
      simp only [List.foldl, List.length_singleton, digitVal_digitChar]
      rw [pow_succ]
      have : 10 * (n / 10) + n % 10 = n := Nat.div_add_mod n 10
      ring_nf
      omega

/-- The decimal value of the digit list of `n` is `n`. -/
theorem digitsVal_natToDigits (n : Nat) : digitsVal (natToDigits n) = n := by
  rw [digitsVal, foldl_natToDigits]
  ring

/-- The digit count of `n` is `log₁₀ n + 1`. -/
theorem length_natToDigits (n : Nat) : (natToDigits n).length = Nat.log 10 n + 1 := by
  induction n using Nat.strong_induction_on with
  | _ n ih =>
    by_cases h : n < 10
    · rw [natToDigits_lt n h]
      have : Nat.log 10 n = 0 := Nat.log_eq_zero_iff.mpr (Or.inl h)
      simp [this]
    · rw [natToDigits_ge n (by omega), List.length_append,
        ih (n / 10) (Nat.div_lt_self (by omega) (by norm_num))]
      have h1 := Nat.log_div_base 10 n
      have h2 := Nat.log_pos (b := 10) (by norm_num) (by omega : 10 ≤ n)
      simp only [List.length_singleton]
      omega

/-- Leading zeroes do not change the decimal value of a digit list. -/
theorem digitsVal_replicate_zero (k : Nat) (ds : List Char) :
    digitsVal (List.replicate k '0' ++ ds) = digitsVal ds := by
  rw [digitsVal, digitsVal, List.foldl_append]
  congr 1
  induction k with
  | zero => rfl
  | succ k ihk => rw [List.replicate_succ, List.foldl_cons]; exact ihk

/-- Shape of the second capture group `(-[0-9]+)?`: empty or a dash
followed by a nonempty digit run. -/
def minorGroupOk (g2 : List Char) : Prop :=
  g2 = [] ∨ ∃ ds, ds ≠ [] ∧ (∀ c ∈ ds, c.isDigit = true) ∧ g2 = '-' :: ds

/-- Shape of the third capture group `(-[A-Za-z][A-Za-z0-9]+)?`: empty
or a dash, a letter, and a nonempty alphanumeric run. -/
def tagGroupOk (g3 : List Char) : Prop :=
  g3 = [] ∨
    ∃ c al, c.isAlpha = true ∧ al ≠ [] ∧ (∀ a ∈ al, a.isAlphanum = true) ∧ g3 = '-' :: c :: al

/-- Shape of the fourth capture group `(jpg|png|gif)`. -/
def extGroupOk (g4 : List Char) : Prop :=
  g4 = ['j', 'p', 'g'] ∨ g4 = ['p', 'n', 'g'] ∨ g4 = ['g', 'i', 'f']

/-- The file-name grammar
`^([0-9]+)(-[0-9]+)?(-[A-Za-z][A-Za-z0-9]+)?\.(jpg|png|gif)$` of
validation.go, stated as the existence of a capture-group
decomposition. -/
def matchesFileRegEx (f : String) : Prop :=
  ∃ g1 g2 g3 g4, f.data = g1 ++ (g2 ++ (g3 ++ '.' :: g4)) ∧ g1 ≠ [] ∧
    (∀ c ∈ g1, c.isDigit = true) ∧ minorGroupOk g2 ∧ tagGroupOk g3 ∧ extGroupOk g4

/-- A maximal run: `takeWhile`/`dropWhile` of `ds ++ rest` give back
`ds` and `rest` when all of `ds` satisfies the predicate and the head
of `rest` (if any) does not. -/
theorem takeWhile_dropWhile_append (p : Char → Bool) :
    ∀ (ds rest : List Char), (∀ c ∈ ds, p c = true) →
      (∀ c t, rest = c :: t → p c = false) →
      (ds ++ rest).takeWhile p = ds ∧ (ds ++ rest).dropWhile p = rest := by
  intro ds
  induction ds with
  | nil =>
    intro rest _ hrest
    cases rest with
    | nil => simp
    | cons c t =>
      have hc := hrest c t rfl
      simp [List.takeWhile_cons, List.dropWhile_cons, hc]
  | cons d ds ih =>
    intro rest hds hrest
    have hd : p d = true := hds d (List.mem_cons_self _ _)
    have hr := ih rest (fun c hc => hds c (List.mem_cons_of_mem _ hc)) hrest
    simp [List.takeWhile_cons, List.dropWhile_cons, hd, hr.1, hr.2]

/-- `splitMinor` consumes a well-shaped minor group whose continuation
does not begin with a digit. -/
theorem splitMinor_minor (ds rest : List Char) (hne : ds ≠ [])
    (hds : ∀ c ∈ ds, c.isDigit = true)
    (hrest : ∀ c t, rest = c :: t → c.isDigit = false) :
    splitMinor (('-' :: ds) ++ rest) = ('-' :: ds, rest) := by
  obtain ⟨d, ds', rfl⟩ : ∃ d ds', ds = d :: ds' := by
    cases ds with
    | nil => exact absurd rfl hne
    | cons d ds' => exact ⟨d, ds', rfl⟩
  have hspan := takeWhile_dropWhile_append Char.isDigit (d :: ds') rest hds hrest
  rw [show ('-' :: d :: ds') ++ rest = '-' :: d :: (ds' ++ rest) from rfl, splitMinor,
    if_pos ⟨rfl, hds d (List.mem_cons_self _ _)⟩]
  rw [show d :: (ds' ++ rest) = (d :: ds') ++ rest from rfl, hspan.1, hspan.2]

/-- `splitMinor` matches nothing in front of a tag group or the final
period. -/
theorem splitMinor_skip (g3 g4 : List Char) (h3 : tagGroupOk g3) :
    splitMinor (g3 ++ '.' :: g4) = ([], g3 ++ '.' :: g4) := by
  rcases h3 with rfl | ⟨c, al, hca, hal, halnum, rfl⟩
  · cases g4 with
    | nil => rfl
    | cons e t =>
      rw [show ([] : List Char) ++ '.' :: e :: t = '.' :: e :: t from rfl, splitMinor, if_neg]
      rintro ⟨h, -⟩
      exact absurd h (by decide)
  · rw [show ('-' :: c :: al) ++ '.' :: g4 = '-' :: c :: (al ++ '.' :: g4) from rfl, splitMinor,
      if_neg]
    rintro ⟨-, h⟩
    rw [isDigit_eq_false_of_isAlpha hca] at h
    exact Bool.false_ne_true h

/-- `splitTag` consumes a well-shaped tag group followed by the final
period. -/
theorem splitTag_tag (c : Char) (al g4 : List Char) (hca : c.isAlpha = true)
    (hal : al ≠ []) (halnum : ∀ a ∈ al, a.isAlphanum = true) :
    splitTag (('-' :: c :: al) ++ '.' :: g4) = some ('-' :: c :: al, '.' :: g4) := by
  have hspan := takeWhile_dropWhile_append Char.isAlphanum al ('.' :: g4) halnum
    (by rintro e t h; cases h; decide)
  rw [show ('-' :: c :: al) ++ '.' :: g4 = '-' :: c :: (al ++ '.' :: g4) from rfl, splitTag,
    if_pos rfl, if_pos hca, hspan.1, hspan.2, if_neg (by simpa [List.isEmpty_iff] using hal)]

/-- `splitTag` matches nothing in front of the final period. -/
theorem splitTag_skip (g4 : List Char) : splitTag ('.' :: g4) = some ([], '.' :: g4) := by
  cases g4 with
  | nil => rfl
  | cons e t =>
    rw [splitTag, if_neg]
    exact fun h => absurd h (by decide)

/-- `extOf` accepts the final period and a valid extension. -/
theorem extOf_ok (g4 : List Char) (h : extGroupOk g4) : extOf ('.' :: g4) = some g4 := by
  rw [extOf, if_pos ⟨rfl, h⟩]

/-- Completeness of the capture-group split: on a string assembled from
well-shaped groups, `parseGroups` returns exactly those groups. -/
theorem parseGroups_of_groups (g1 g2 g3 g4 : List Char)
    (h1 : g1 ≠ []) (h1d : ∀ c ∈ g1, c.isDigit = true)
    (h2 : minorGroupOk g2) (h3 : tagGroupOk g3) (h4 : extGroupOk g4) :
    parseGroups (g1 ++ (g2 ++ (g3 ++ '.' :: g4))) = some (g1, g2, g3, g4) := by
  have hhead : ∀ c t, g2 ++ (g3 ++ '.' :: g4) = c :: t → c.isDigit = false := by
    rcases h2 with rfl | ⟨ds, hne, hds, rfl⟩
    · rcases h3 with rfl | ⟨c', al, hca, hal, halnum, rfl⟩
      · rintro c t h
        rw [List.nil_append] at h
        cases h
        decide
      · rintro c t h
        rw [List.nil_append] at h
        cases h
        decide
    · rintro c t h
      cases h
      decide
  have hspan := takeWhile_dropWhile_append Char.isDigit g1 (g2 ++ (g3 ++ '.' :: g4)) h1d hhead
  have hminor : splitMinor (g2 ++ (g3 ++ '.' :: g4)) = (g2, g3 ++ '.' :: g4) := by
    rcases h2 with rfl | ⟨ds, hne, hds, rfl⟩
    · rw [List.nil_append]
      exact splitMinor_skip g3 g4 h3
    · refine splitMinor_minor ds (g3 ++ '.' :: g4) hne hds ?_
      rcases h3 with rfl | ⟨c', al, hca, hal, halnum, rfl⟩
      · rintro c t h
        rw [List.nil_append] at h
        cases h
        decide
      · rintro c t h
        cases h
        decide
  have htag : splitTag (g3 ++ '.' :: g4) = some (g3, '.' :: g4) := by
    rcases h3 with rfl | ⟨c', al, hca, hal, halnum, rfl⟩
    · rw [List.nil_append]
      exact splitTag_skip g4
    · exact splitTag_tag c' al g4 hca hal halnum
  rw [parseGroups, hspan.1, hspan.2, if_neg (by simpa [List.isEmpty_iff] using h1), hminor]
  simp only [htag, extOf_ok g4 h4]

/-- `splitMinor` splits its input and its first component is a
well-shaped minor group. -/
theorem splitMinor_sound (cs : List Char) :
    (splitMinor cs).1 ++ (splitMinor cs).2 = cs ∧ minorGroupOk (splitMinor cs).1 := by
  cases cs with
  | nil => exact ⟨rfl, Or.inl rfl⟩
  | cons c1 t =>
    cases t with
    | nil => exact ⟨rfl, Or.inl rfl⟩
    | cons c2 rest =>
      rw [splitMinor]
      by_cases h : c1 = '-' ∧ c2.isDigit = true
      · rw [if_pos h]
        obtain ⟨rfl, hd⟩ := h
        constructor
        · show '-' :: ((c2 :: rest).takeWhile Char.isDigit ++ (c2 :: rest).dropWhile Char.isDigit)
            = '-' :: c2 :: rest
          rw [List.takeWhile_append_dropWhile]
        · refine Or.inr ⟨(c2 :: rest).takeWhile Char.isDigit, ?_, ?_, rfl⟩
          · rw [List.takeWhile_cons, if_pos hd]
            simp
          · intro c hc
            exact List.mem_takeWhile_imp hc
      · rw [if_neg h]
        exact ⟨rfl, Or.inl rfl⟩

/-- `splitTag` splits its input and its first component is a
well-shaped tag group. -/
theorem splitTag_sound (cs g3 r3 : List Char) (h : splitTag cs = some (g3, r3)) :
    g3 ++ r3 = cs ∧ tagGroupOk g3 := by
  cases cs with
  | nil =>
    obtain ⟨rfl, rfl⟩ : ([] : List Char) = g3 ∧ ([] : List Char) = r3 := by
      simpa [splitTag, Prod.ext_iff] using h
    exact ⟨rfl, Or.inl rfl⟩
  | cons c1 t =>
    cases t with
    | nil =>
      obtain ⟨rfl, rfl⟩ : ([] : List Char) = g3 ∧ [c1] = r3 := by
        simpa [splitTag, Prod.ext_iff] using h
      exact ⟨rfl, Or.inl rfl⟩
    | cons c2 rest =>
      rw [splitTag] at h
      by_cases h1 : c1 = '-'
      · rw [if_pos h1] at h
        by_cases h2 : c2.isAlpha = true
        · rw [if_pos h2] at h
          by_cases h3 : ((rest.takeWhile Char.isAlphanum).isEmpty : Prop)
          · rw [if_pos h3] at h
            exact absurd h (by simp)
          · rw [if_neg h3] at h
            obtain ⟨rfl, rfl⟩ :
                '-' :: c2 :: rest.takeWhile Char.isAlphanum = g3 ∧
                  rest.dropWhile Char.isAlphanum = r3 := by
              simpa [Prod.ext_iff] using h
            subst h1
            constructor
            · show '-' :: c2 :: (rest.takeWhile Char.isAlphanum ++ rest.dropWhile Char.isAlphanum)
                = '-' :: c2 :: rest
              rw [List.takeWhile_append_dropWhile]
            · refine Or.inr ⟨c2, rest.takeWhile Char.isAlphanum, h2, ?_, ?_, rfl⟩
              · simpa [List.isEmpty_iff] using h3
              · intro a ha
                exact List.mem_takeWhile_imp ha
        · rw [if_neg h2] at h
          exact absurd h (by simp)
      · rw [if_neg h1] at h
        obtain ⟨rfl, rfl⟩ : ([] : List Char) = g3 ∧ c1 :: c2 :: rest = r3 := by
          simpa [Prod.ext_iff] using h
        exact ⟨rfl, Or.inl rfl⟩

/-- `extOf` succeeds exactly on a period followed by a valid
extension. -/
theorem extOf_sound (cs g4 : List Char) (h : extOf cs = some g4) :
    cs = '.' :: g4 ∧ extGroupOk g4 := by
  cases cs with
  | nil => exact absurd h (by simp [extOf])
  | cons c rest =>
    rw [extOf] at h
    by_cases hc : c = '.' ∧ (rest = ['j', 'p', 'g'] ∨ rest = ['p', 'n', 'g'] ∨ rest = ['g', 'i', 'f'])
    · rw [if_pos hc] at h
      obtain rfl : rest = g4 := by simpa using h
      exact ⟨by rw [hc.1], hc.2⟩
    · rw [if_neg hc] at h
      exact absurd h (by simp)

/-- Soundness of the capture-group split: a successful `parseGroups`
yields a decomposition of the input into well-shaped groups. -/
theorem parseGroups_sound {cs g1 g2 g3 g4 : List Char}
    (h : parseGroups cs = some (g1, g2, g3, g4)) :
    cs = g1 ++ (g2 ++ (g3 ++ '.' :: g4)) ∧ g1 ≠ [] ∧ (∀ c ∈ g1, c.isDigit = true) ∧
      minorGroupOk g2 ∧ tagGroupOk g3 ∧ extGroupOk g4 := by
  rw [parseGroups] at h
  split at h
  · exact absurd h (by simp)
  · rename_i he
    split at h
    rename_i g2' r2 hsm
    split at h
    · exact absurd h (by simp)
    · rename_i p g3' r3 hst
      split at h
      · exact absurd h (by simp)
      · rename_i q g4' hx
        obtain ⟨rfl, rfl, rfl, rfl⟩ :
            cs.takeWhile Char.isDigit = g1 ∧ g2' = g2 ∧ g3' = g3 ∧ g4' = g4 := by
          simpa using h
        have hm := splitMinor_sound (cs.dropWhile Char.isDigit)
        rw [hsm] at hm
        obtain hm1 : g2' ++ r2 = cs.dropWhile Char.isDigit := hm.1
        have ht := splitTag_sound r2 g3' r3 hst
        have hext := extOf_sound r3 g4' hx
        refine ⟨?_, by simpa [List.isEmpty_iff] using he, ?_, hm.2, ht.2, hext.2⟩
        · conv_lhs => rw [← List.takeWhile_append_dropWhile (p := Char.isDigit) (l := cs)]
          rw [← hm1, ← ht.1, hext.1]
        · intro c hc
          exact List.mem_takeWhile_imp hc

/-- Length of the decimal rendering of a natural number as an
integer. -/
theorem length_Itoa_natCast (n : Nat) : (Itoa (n : Int)).length = Nat.log 10 n + 1 := by
  rw [Itoa, if_neg (by omega : ¬ ((n : Int) < 0))]
  show (natToDigits ((n : Int)).toNat).length = _
  rw [Int.toNat_natCast]
  exact length_natToDigits n

/-- Reduction of `ParseFileName` on a name whose groups are known. -/
theorem ParseFileName_groups (f : String) (g1 g2 g3 g4 : List Char)
    (hp : parseGroups f.data = some (g1, g2, g3, g4)) :
    ParseFileName f =
      if maxInt < digitsVal g1 then
        .error ("Invalid major version \"" ++ g1.asString ++ "\": " ++ f)
      else if g2.isEmpty = false ∧ maxInt < digitsVal (g2.drop 1) then
        .error ("Invalid minor version \"" ++ (g2.drop 1).asString ++ "\": " ++ f)
      else
        .ok
          { major := ((digitsVal g1 : Nat) : Int)
            minor := if g2.isEmpty then NoMinorVersion else ((digitsVal (g2.drop 1) : Nat) : Int)
            majorDigits := (Itoa ((digitsVal g1 : Nat) : Int)).length
            minorDigits :=
              if (if g2.isEmpty then NoMinorVersion
                  else ((digitsVal (g2.drop 1) : Nat) : Int)) = NoMinorVersion then 0
              else (Itoa (if g2.isEmpty then NoMinorVersion
                else ((digitsVal (g2.drop 1) : Nat) : Int))).length
            originalName := f
            descriptor := g3.asString
            extension := g4.asString } := by
  rw [ParseFileName, hp]

/-- The numeric capture groups of a grammar match fit in Go's `int`,
so `strconv.Atoi` succeeds on them (stated over every capture-group
decomposition of the name). -/
def valuesFitInt (f : String) : Prop :=
  ∀ g1 g2 g3 g4, f.data = g1 ++ (g2 ++ (g3 ++ '.' :: g4)) → g1 ≠ [] →
    (∀ c ∈ g1, c.isDigit = true) → minorGroupOk g2 → tagGroupOk g3 → extGroupOk g4 →
    digitsVal g1 ≤ maxInt ∧ ∀ ds, g2 = '-' :: ds → digitsVal ds ≤ maxInt

/-- The major-overflow error message is never the no-match error. -/
theorem invalid_major_ne_bad (s f : String) :
    "Invalid major version \"" ++ s ++ "\": " ++ f ≠ "Bad filename: " ++ f := by
  intro h
  have hd := congrArg String.data h
  simp only [String.data_append] at hd
  have h1 := congrArg List.head? hd
  have h2 : (some 'I' : Option Char) = some 'B' := h1
  exact absurd h2 (by decide)

/-- The minor-overflow error message is never the no-match error. -/
theorem invalid_minor_ne_bad (s f : String) :
    "Invalid minor version \"" ++ s ++ "\": " ++ f ≠ "Bad filename: " ++ f := by
  intro h
  have hd := congrArg String.data h
  simp only [String.data_append] at hd
  have h1 := congrArg List.head? hd
  have h2 : (some 'I' : Option Char) = some 'B' := h1
  exact absurd h2 (by decide)

/-- Claim C9, counterexample: `99999999999999999999.jpg` matches the
grammar, but its major value exceeds the 64-bit `int` range, so
`strconv.Atoi` fails and `ParseFileName` returns the
`"Invalid major version"` error instead of parsing successfully — the
claimed "every name matching the grammar parses successfully" is
false. -/
theorem parse_overflow_error :
    matchesFileRegEx "99999999999999999999.jpg" ∧
      ParseFileName "99999999999999999999.jpg" =
        .error "Invalid major version \"99999999999999999999\": 99999999999999999999.jpg" ∧
      ¬ ∃ d, ParseFileName "99999999999999999999.jpg" = .ok d := by
  have herr : ParseFileName "99999999999999999999.jpg" =
      .error "Invalid major version \"99999999999999999999\": 99999999999999999999.jpg" := by
    rfl
  refine ⟨⟨List.replicate 20 '9', [], [], ['j', 'p', 'g'], by decide, by decide, by decide,
    Or.inl rfl, Or.inl rfl, Or.inl rfl⟩, herr, ?_⟩
  rintro ⟨d, hd⟩
  rw [herr] at hd
  exact Except.noConfusion hd

/-- Claim C9 (amended): `ParseFileName` fails exactly when the name
does not match the grammar
`^([0-9]+)(-[0-9]+)?(-[A-Za-z][A-Za-z0-9]+)?\.(jpg|png|gif)$` or a
numeric group exceeds the `int` range: the `"Bad filename"` error
carrying the offending string signals exactly a failed match, some
error is returned exactly when the name fails to match or a value
overflows, and a name parses successfully exactly when it matches the
grammar with in-range values. -/
theorem parseFileName_error_iff (f : String) :
    (ParseFileName f = .error ("Bad filename: " ++ f) ↔ ¬ matchesFileRegEx f) ∧
      ((∃ e, ParseFileName f = .error e) ↔ ¬ (matchesFileRegEx f ∧ valuesFitInt f)) ∧
      ((matchesFileRegEx f ∧ valuesFitInt f) ↔ ∃ d, ParseFileName f = .ok d) := by
  cases hp : parseGroups f.data with
  | none =>
    have hnm : ¬ matchesFileRegEx f := by
      rintro ⟨g1, g2, g3, g4, hdec, h1, h1d, h2, h3, h4⟩
      have hc := parseGroups_of_groups g1 g2 g3 g4 h1 h1d h2 h3 h4
      rw [← hdec, hp] at hc
      exact absurd hc (by simp)
    refine ⟨⟨fun _ => hnm, fun _ => by rw [ParseFileName, hp]⟩,
      ⟨fun _ hc => hnm hc.1, fun _ => ⟨"Bad filename: " ++ f, by rw [ParseFileName, hp]⟩⟩,
      ⟨fun hc => absurd hc.1 hnm, ?_⟩⟩
    rintro ⟨d, hd⟩
    rw [ParseFileName, hp] at hd
    exact absurd hd (by simp)
  | some g =>
    obtain ⟨g1, g2, g3, g4⟩ := g
    have hs := parseGroups_sound hp
    have hm : matchesFileRegEx f :=
      ⟨g1, g2, g3, g4, hs.1, hs.2.1, hs.2.2.1, hs.2.2.2.1, hs.2.2.2.2.1, hs.2.2.2.2.2⟩
    have hfit : valuesFitInt f ↔
        (digitsVal g1 ≤ maxInt ∧ ∀ ds, g2 = '-' :: ds → digitsVal ds ≤ maxInt) := by
      constructor
      · intro hv
        exact hv g1 g2 g3 g4 hs.1 hs.2.1 hs.2.2.1 hs.2.2.2.1 hs.2.2.2.2.1 hs.2.2.2.2.2
      · rintro ⟨hb1, hb2⟩ h1 h2 h3 h4 hdec hne hdig hmg htg heg
        have hpc := parseGroups_of_groups h1 h2 h3 h4 hne hdig hmg htg heg
        rw [← hdec, hp] at hpc
        simp only [Option.some.injEq, Prod.mk.injEq] at hpc
        obtain ⟨e1, e2, -, -⟩ := hpc
        rw [← e1, ← e2]
        exact ⟨hb1, hb2⟩
    by_cases hb1 : maxInt < digitsVal g1
    · have hPF : ParseFileName f =
          .error ("Invalid major version \"" ++ g1.asString ++ "\": " ++ f) := by
        rw [ParseFileName_groups f g1 g2 g3 g4 hp, if_pos hb1]
      have hnfit : ¬ valuesFitInt f := fun hv => absurd (hfit.mp hv).1 (by omega)
      refine ⟨⟨fun he => ?_, fun hn => absurd hm hn⟩,
        ⟨fun _ hc => hnfit hc.2, fun _ => ⟨_, hPF⟩⟩,
        ⟨fun hc => absurd hc.2 hnfit, ?_⟩⟩
      · rw [hPF] at he
        simp only [Except.error.injEq] at he
        exact fun _ => invalid_major_ne_bad g1.asString f he
      · rintro ⟨d, hd⟩
        rw [hPF] at hd
        exact Except.noConfusion hd
    · by_cases hb2 : g2.isEmpty = false ∧ maxInt < digitsVal (g2.drop 1)
      · have hPF : ParseFileName f =
            .error ("Invalid minor version \"" ++ (g2.drop 1).asString ++ "\": " ++ f) := by
          rw [ParseFileName_groups f g1 g2 g3 g4 hp, if_neg hb1, if_pos hb2]
        have hnfit : ¬ valuesFitInt f := by
          intro hv
          have hv2 := (hfit.mp hv).2
          rcases hs.2.2.2.1 with hg2 | ⟨ds, -, -, hg2⟩
          · rw [hg2] at hb2
            exact absurd hb2.1 (by simp)
          · have hle := hv2 ds hg2
            rw [hg2] at hb2
            simp only [List.drop_succ_cons, List.drop_zero] at hb2
            omega
        refine ⟨⟨fun he => ?_, fun hn => absurd hm hn⟩,
          ⟨fun _ hc => hnfit hc.2, fun _ => ⟨_, hPF⟩⟩,
          ⟨fun hc => absurd hc.2 hnfit, ?_⟩⟩
        · rw [hPF] at he
          simp only [Except.error.injEq] at he
          exact fun _ => invalid_minor_ne_bad (g2.drop 1).asString f he
        · rintro ⟨d, hd⟩
          rw [hPF] at hd
          exact Except.noConfusion hd
      · have hPF : ParseFileName f = .ok
            { major := ((digitsVal g1 : Nat) : Int)
              minor := if g2.isEmpty then NoMinorVersion
                else ((digitsVal (g2.drop 1) : Nat) : Int)
              majorDigits := (Itoa ((digitsVal g1 : Nat) : Int)).length
              minorDigits :=
                if (if g2.isEmpty then NoMinorVersion
                    else ((digitsVal (g2.drop 1) : Nat) : Int)) = NoMinorVersion then 0
                else (Itoa (if g2.isEmpty then NoMinorVersion
                  else ((digitsVal (g2.drop 1) : Nat) : Int))).length
              originalName := f
              descriptor := g3.asString
              extension := g4.asString } := by
          rw [ParseFileName_groups f g1 g2 g3 g4 hp, if_neg hb1, if_neg hb2]
        have hfitT : valuesFitInt f := by
          refine hfit.mpr ⟨by omega, fun ds hds => ?_⟩
          by_contra hlt
          refine hb2 ⟨by rw [hds]; rfl, ?_⟩
          rw [hds]
          show maxInt < digitsVal ds
          omega
        refine ⟨⟨fun he => ?_, fun hn => absurd hm hn⟩,
          ⟨fun hex => ?_, fun hc => absurd ⟨hm, hfitT⟩ hc⟩,
          ⟨fun _ => ⟨_, hPF⟩, fun _ => ⟨hm, hfitT⟩⟩⟩
        · rw [hPF] at he
          exact Except.noConfusion he
        · intro hc2
          obtain ⟨e, he⟩ := hex
          rw [hPF] at he
          exact Except.noConfusion he

/-- A successful parse pins down the descriptor and the `Atoi`
bounds. -/
theorem ParseFileName_ok_elim (f : String) (g1 g2 g3 g4 : List Char)
    (hp : parseGroups f.data = some (g1, g2, g3, g4)) (d : FileNamePieces)
    (h : ParseFileName f = .ok d) :
    d = { major := ((digitsVal g1 : Nat) : Int)
          minor := if g2.isEmpty then NoMinorVersion else ((digitsVal (g2.drop 1) : Nat) : Int)
          majorDigits := (Itoa ((digitsVal g1 : Nat) : Int)).length
          minorDigits :=
            if (if g2.isEmpty then NoMinorVersion
                else ((digitsVal (g2.drop 1) : Nat) : Int)) = NoMinorVersion then 0
            else (Itoa (if g2.isEmpty then NoMinorVersion
              else ((digitsVal (g2.drop 1) : Nat) : Int))).length
          originalName := f
          descriptor := g3.asString
          extension := g4.asString } ∧
      digitsVal g1 ≤ maxInt ∧
      ¬ (g2.isEmpty = false ∧ maxInt < digitsVal (g2.drop 1)) := by
  rw [ParseFileName_groups f g1 g2 g3 g4 hp] at h
  by_cases hc1 : maxInt < digitsVal g1
  · rw [if_pos hc1] at h
    exact absurd h (by simp)
  · rw [if_neg hc1] at h
    by_cases hc2 : g2.isEmpty = false ∧ maxInt < digitsVal (g2.drop 1)
    · rw [if_pos hc2] at h
      exact absurd h (by simp)
    · rw [if_neg hc2] at h
      simp only [Except.ok.injEq] at h
      exact ⟨h.symm, by omega, hc2⟩

/-- Field description of a successful parse (helper shared by several
results below). -/
theorem parseFileName_ok_fields (f : String) (d : FileNamePieces) (h : ParseFileName f = .ok d) :
    0 ≤ d.major ∧ d.originalName = f ∧ d.majorDigits = Nat.log 10 d.major.toNat + 1 ∧
      (d.minor = NoMinorVersion ∧ d.minorDigits = 0 ∨
        0 ≤ d.minor ∧ d.minorDigits = Nat.log 10 d.minor.toNat + 1) ∧
      ∃ g1 g2 g3 g4,
        f.data = g1 ++ (g2 ++ (g3 ++ '.' :: g4)) ∧ g1 ≠ [] ∧ (∀ c ∈ g1, c.isDigit = true) ∧
          minorGroupOk g2 ∧ tagGroupOk g3 ∧ extGroupOk g4 ∧
          d.major = (digitsVal g1 : Int) ∧ (g2 = [] → d.minor = NoMinorVersion) ∧
          (∀ ds, g2 = '-' :: ds → d.minor = (digitsVal ds : Int)) ∧
          d.descriptor = g3.asString ∧ d.extension = g4.asString := by
  cases hp : parseGroups f.data with
  | none =>
    rw [ParseFileName, hp] at h
    exact absurd h (by simp)
  | some g =>
    obtain ⟨g1, g2, g3, g4⟩ := g
    have hs := parseGroups_sound hp
    have hde := (ParseFileName_ok_elim f g1 g2 g3 g4 hp d h).1
    subst hde
    by_cases hg2 : g2.isEmpty
    · refine ⟨by simp, rfl, ?_, Or.inl ⟨by simp [hg2], by simp [hg2]⟩, g1, g2, g3, g4, hs.1,
        hs.2.1, hs.2.2.1, hs.2.2.2.1, hs.2.2.2.2.1, hs.2.2.2.2.2, rfl, fun _ => by simp [hg2],
        ?_, rfl, rfl⟩
      · show (Itoa ((digitsVal g1 : Nat) : Int)).length = _
        rw [length_Itoa_natCast, Int.toNat_natCast]
      · intro ds hds
        rw [List.isEmpty_iff] at hg2
        rw [hg2] at hds
        exact absurd hds (by simp)
    · have hmin : ¬ ((if g2.isEmpty then NoMinorVersion
          else ((digitsVal (g2.drop 1) : Nat) : Int)) = NoMinorVersion) := by
        rw [if_neg hg2, NoMinorVersion]
        omega
      refine ⟨by simp, rfl, ?_, Or.inr ⟨?_, ?_⟩, g1, g2, g3, g4, hs.1, hs.2.1, hs.2.2.1,
        hs.2.2.2.1, hs.2.2.2.2.1, hs.2.2.2.2.2, rfl, fun he => absurd (List.isEmpty_iff.mpr he)
        hg2, ?_, rfl, rfl⟩
      · show (Itoa ((digitsVal g1 : Nat) : Int)).length = _
        rw [length_Itoa_natCast, Int.toNat_natCast]
      · show (0 : Int) ≤ (if g2.isEmpty then NoMinorVersion
          else ((digitsVal (g2.drop 1) : Nat) : Int))
        rw [if_neg hg2]
        omega
      · show (if _ = NoMinorVersion then 0 else (Itoa _).length) = _
        rw [if_neg hmin, if_neg hg2, length_Itoa_natCast, Int.toNat_natCast]
      · intro ds hds
        show (if g2.isEmpty then NoMinorVersion
          else ((digitsVal (g2.drop 1) : Nat) : Int)) = _
        rw [if_neg hg2, hds]
        rfl

/-- The `Atoi` bounds of a successful parse: the parsed values fit in
the platform `int`. -/
theorem parseFileName_ok_bounds (f : String) (d : FileNamePieces)
    (h : ParseFileName f = .ok d) :
    d.major ≤ (maxInt : Int) ∧ (d.minor = NoMinorVersion ∨ d.minor ≤ (maxInt : Int)) := by
  cases hp : parseGroups f.data with
  | none =>
    rw [ParseFileName, hp] at h
    exact absurd h (by simp)
  | some g =>
    obtain ⟨g1, g2, g3, g4⟩ := g
    obtain ⟨hde, hb1, hb2⟩ := ParseFileName_ok_elim f g1 g2 g3 g4 hp d h
    subst hde
    constructor
    · show ((digitsVal g1 : Nat) : Int) ≤ (maxInt : Int)
      omega
    · by_cases hg2 : g2.isEmpty
      · refine Or.inl ?_
        show (if g2.isEmpty then NoMinorVersion
          else ((digitsVal (g2.drop 1) : Nat) : Int)) = NoMinorVersion
        rw [if_pos hg2]
      · refine Or.inr ?_
        show (if g2.isEmpty then NoMinorVersion
          else ((digitsVal (g2.drop 1) : Nat) : Int)) ≤ (maxInt : Int)
        rw [if_neg hg2]
        have h2 : ¬ maxInt < digitsVal (g2.drop 1) := fun hlt =>
          hb2 ⟨by simpa using hg2, hlt⟩
        omega

/-- Claim C6: on a successful parse the descriptor's major (and minor,
when present) are non-negative, its digit counts are the natural
decimal widths of the parsed values (`0` for an absent minor), its
`originalName` is the input, and its remaining fields are the capture
groups of the grammar match: major is the value of group 1, minor the
value of group 2 without its dash (`NoMinorVersion` when group 2 is
empty), the descriptor is group 3 verbatim and the extension group
4. -/
theorem parseFileName_fields (f : String) (d : FileNamePieces) (h : ParseFileName f = .ok d) :
    0 ≤ d.major ∧ d.originalName = f ∧ d.majorDigits = Nat.log 10 d.major.toNat + 1 ∧
      (d.minor = NoMinorVersion ∧ d.minorDigits = 0 ∨
        0 ≤ d.minor ∧ d.minorDigits = Nat.log 10 d.minor.toNat + 1) ∧
      ∃ g1 g2 g3 g4,
        f.data = g1 ++ (g2 ++ (g3 ++ '.' :: g4)) ∧ g1 ≠ [] ∧ (∀ c ∈ g1, c.isDigit = true) ∧
          minorGroupOk g2 ∧ tagGroupOk g3 ∧ extGroupOk g4 ∧
          d.major = (digitsVal g1 : Int) ∧ (g2 = [] → d.minor = NoMinorVersion) ∧
          (∀ ds, g2 = '-' :: ds → d.minor = (digitsVal ds : Int)) ∧
          d.descriptor = g3.asString ∧ d.extension = g4.asString :=
  parseFileName_ok_fields f d h

/-- Witness for claim C6 at the concrete name `5-0-Foo.jpg`. -/
theorem parseFileName_fields_witness :
    ParseFileName "5-0-Foo.jpg" =
        .ok
          { major := 5, minor := 0, majorDigits := 1, minorDigits := 1,
            originalName := "5-0-Foo.jpg", descriptor := "-Foo", extension := "jpg" } ∧
      ({ major := 5, minor := 0, majorDigits := 1, minorDigits := 1,
         originalName := "5-0-Foo.jpg", descriptor := "-Foo", extension := "jpg" } :
            FileNamePieces).originalName = "5-0-Foo.jpg" :=
  ⟨by rfl, (parseFileName_fields "5-0-Foo.jpg" _ (by rfl)).2.1⟩

/-- `List.asString` undoes `String.data`. -/
theorem asString_data (s : String) : List.asString s.data = s := by
  cases s
  rfl

/-- Zero padding consists of digit characters. -/
theorem mem_pad_digits (k n : Nat) :
    ∀ c ∈ List.replicate k '0' ++ natToDigits n, c.isDigit = true := by
  intro c hc
  rcases List.mem_append.mp hc with hc | hc
  · rw [List.eq_of_mem_replicate hc]
    decide
  · exact mem_natToDigits_isDigit n c hc

/-- A zero-padded digit list is nonempty. -/
theorem pad_digits_ne_nil (k n : Nat) : List.replicate k '0' ++ natToDigits n ≠ [] := by
  intro h
  rcases List.append_eq_nil.mp h with ⟨-, h2⟩
  exact natToDigits_ne_nil n h2

/-- The decimal value of a zero-padded digit list of `n` is `n`. -/
theorem digitsVal_pad (k n : Nat) :
    digitsVal (List.replicate k '0' ++ natToDigits n) = n := by
  rw [digitsVal_replicate_zero, digitsVal_natToDigits]

/-- Length of the decimal rendering of a non-negative integer. -/
theorem length_Itoa_nonneg (i : Int) (h : 0 ≤ i) :
    (Itoa i).length = Nat.log 10 i.toNat + 1 := by
  conv_lhs => rw [← Int.toNat_of_nonneg h]
  rw [length_Itoa_natCast]

/-- The data of the decimal rendering of a non-negative integer. -/
theorem data_Itoa_nonneg (i : Int) (h : 0 ≤ i) : (Itoa i).data = natToDigits i.toNat := by
  rw [Itoa, if_neg (by omega)]
  rfl

/-- The field invariants that every descriptor flowing through the
planner satisfies: a non-negative major that fits in the platform
`int` (`strconv.Atoi` guarantees the bound on parse), a minor that is
either the sentinel or non-negative and in bounds, a descriptor that
is a well-shaped tag group and an extension from the allow-list.
Parsing establishes them and the planner's renumbering and
gap-filling preserve them. -/
def WellFormedPieces (d : FileNamePieces) : Prop :=
  0 ≤ d.major ∧ d.major ≤ (maxInt : Int) ∧
    (d.minor = NoMinorVersion ∨ 0 ≤ d.minor ∧ d.minor ≤ (maxInt : Int)) ∧
    tagGroupOk d.descriptor.data ∧ extGroupOk d.extension.data

/-- Rendering a well-formed descriptor and parsing the result succeeds
and recovers the values (helper shared by several results below). -/
theorem render_parse_ok (d : FileNamePieces) (h : WellFormedPieces d) :
    ParseFileName d.String = .ok
      { major := d.major, minor := d.minor, majorDigits := Nat.log 10 d.major.toNat + 1,
        minorDigits := if d.minor = NoMinorVersion then 0 else Nat.log 10 d.minor.toNat + 1,
        originalName := d.String, descriptor := d.descriptor, extension := d.extension } := by
  obtain ⟨hmaj, hmaxmaj, hmin, htag, hext⟩ := h
  by_cases hm : d.minor = NoMinorVersion
  · have hdata : (d.String).data =
        (List.replicate (d.majorDigits - (Itoa d.major).length) '0' ++ natToDigits d.major.toNat)
          ++ ([] ++ (d.descriptor.data ++ '.' :: d.extension.data)) := by
      rw [FileNamePieces.String, if_neg (by simp [hm])]
      simp [String.data_append, prependZeroes, data_Itoa_nonneg d.major hmaj]
    have hp : parseGroups (d.String).data =
        some (List.replicate (d.majorDigits - (Itoa d.major).length) '0'
          ++ natToDigits d.major.toNat, [], d.descriptor.data, d.extension.data) := by
      rw [hdata]
      exact parseGroups_of_groups _ _ _ _ (pad_digits_ne_nil _ _) (mem_pad_digits _ _)
        (Or.inl rfl) htag hext
    have hg1 : ¬ maxInt < digitsVal (List.replicate (d.majorDigits - (Itoa d.major).length) '0'
        ++ natToDigits d.major.toNat) := by
      rw [digitsVal_pad]
      omega
    rw [ParseFileName_groups _ _ _ _ _ hp, if_neg hg1, if_neg (by simp :
      ¬ (([] : List Char).isEmpty = false ∧ maxInt < digitsVal (([] : List Char).drop 1)))]
    simp only [Except.ok.injEq, FileNamePieces.mk.injEq, List.isEmpty_nil, if_true,
      List.isEmpty_eq_true, digitsVal_pad]
    refine ⟨Int.toNat_of_nonneg hmaj, hm.symm, length_Itoa_natCast _, ?_, trivial,
      asString_data _, asString_data _⟩
    rw [if_pos hm]
  · have hminpos : 0 ≤ d.minor := (hmin.resolve_left hm).1
    have hminmax : d.minor ≤ (maxInt : Int) := (hmin.resolve_left hm).2
    have hdata : (d.String).data =
        (List.replicate (d.majorDigits - (Itoa d.major).length) '0' ++ natToDigits d.major.toNat)
          ++ (('-' :: (List.replicate (d.minorDigits - (Itoa d.minor).length) '0'
              ++ natToDigits d.minor.toNat))
            ++ (d.descriptor.data ++ '.' :: d.extension.data)) := by
      rw [FileNamePieces.String, if_pos hm]
      simp [String.data_append, prependZeroes, data_Itoa_nonneg d.major hmaj,
        data_Itoa_nonneg d.minor hminpos]
    have hp : parseGroups (d.String).data =
        some (List.replicate (d.majorDigits - (Itoa d.major).length) '0'
            ++ natToDigits d.major.toNat,
          '-' :: (List.replicate (d.minorDigits - (Itoa d.minor).length) '0'
            ++ natToDigits d.minor.toNat),
          d.descriptor.data, d.extension.data) := by
      rw [hdata]
      exact parseGroups_of_groups _ _ _ _ (pad_digits_ne_nil _ _) (mem_pad_digits _ _)
        (Or.inr ⟨_, pad_digits_ne_nil _ _, mem_pad_digits _ _, rfl⟩) htag hext
    have hg1 : ¬ maxInt < digitsVal (List.replicate (d.majorDigits - (Itoa d.major).length) '0'
        ++ natToDigits d.major.toNat) := by
      rw [digitsVal_pad]
      omega
    have hg2 : ¬ (('-' :: (List.replicate (d.minorDigits - (Itoa d.minor).length) '0'
        ++ natToDigits d.minor.toNat)).isEmpty = false ∧
        maxInt < digitsVal (('-' :: (List.replicate (d.minorDigits - (Itoa d.minor).length) '0'
          ++ natToDigits d.minor.toNat)).drop 1)) := by
      rintro ⟨-, h2⟩
      rw [List.drop_succ_cons, List.drop_zero, digitsVal_pad] at h2
      omega
    rw [ParseFileName_groups _ _ _ _ _ hp, if_neg hg1, if_neg hg2]
    have hne : ¬ (('-' :: (List.replicate (d.minorDigits - (Itoa d.minor).length) '0'
        ++ natToDigits d.minor.toNat)).isEmpty = true) := by simp
    simp only [Except.ok.injEq, FileNamePieces.mk.injEq, hne, if_false, List.isEmpty_cons,
      List.drop_succ_cons, List.drop_zero, digitsVal_pad, Bool.false_eq_true]
    refine ⟨Int.toNat_of_nonneg hmaj, Int.toNat_of_nonneg hminpos, length_Itoa_natCast _, ?_,
      trivial, asString_data _, asString_data _⟩
    rw [if_neg (show ¬ ((d.minor.toNat : Int) = NoMinorVersion) by rw [NoMinorVersion]; omega),
      if_neg hm]
    exact length_Itoa_natCast _

/-- Claim C7 (amended): rendering a well-formed descriptor and parsing
the result succeeds and recovers the same major, minor, descriptor and
extension; the re-parsed digit counts are the natural decimal widths
of the values (not the rendered widths), and the new `originalName` is
the rendered name. -/
theorem render_parse_roundtrip (d : FileNamePieces) (h : WellFormedPieces d) :
    ParseFileName d.String = .ok
      { major := d.major, minor := d.minor, majorDigits := Nat.log 10 d.major.toNat + 1,
        minorDigits := if d.minor = NoMinorVersion then 0 else Nat.log 10 d.minor.toNat + 1,
        originalName := d.String, descriptor := d.descriptor, extension := d.extension } :=
  render_parse_ok d h

/-- Claim C7, counterexample: with files `1.jpg` and `10.jpg` the
planner renormalizes the `1.jpg` descriptor to a major digit count of
2, rendering it as `01.jpg`; re-parsing `01.jpg` reconstructs a major
digit count of 1 — the natural width of the value — which is strictly
smaller than the width used to render, not at least it. -/
theorem reparse_width_shrinks :
    (renumberMinorVersions (parseFileNames ["1.jpg", "10.jpg"])).map (·.majorDigits) = [2, 2] ∧
      (renumberMinorVersions (parseFileNames ["1.jpg", "10.jpg"])).map (·.String) =
        ["01.jpg", "10.jpg"] ∧
      ParseFileName "01.jpg" =
        .ok
          { major := 1, minor := -99, majorDigits := 1, minorDigits := 0,
            originalName := "01.jpg", descriptor := "", extension := "jpg" } ∧
      ¬ 2 ≤ 1 :=
  ⟨by decide, by decide, by rfl, by decide⟩

/-- Witness for claim C7 (amended) at a concrete well-formed
descriptor with a padded major digit count. -/
theorem render_parse_roundtrip_witness :
    WellFormedPieces
        { major := 1, minor := -99, majorDigits := 2, minorDigits := 0,
          originalName := "1.jpg", descriptor := "", extension := "jpg" } ∧
      ParseFileName
          ({ major := 1, minor := -99, majorDigits := 2, minorDigits := 0,
             originalName := "1.jpg", descriptor := "", extension := "jpg" } :
              FileNamePieces).String =
        .ok
          { major := 1, minor := -99, majorDigits := Nat.log 10 (1 : Int).toNat + 1,
            minorDigits := if (-99 : Int) = NoMinorVersion then 0
              else Nat.log 10 (-99 : Int).toNat + 1,
            originalName := ({ major := 1, minor := -99, majorDigits := 2, minorDigits := 0,
                               originalName := "1.jpg", descriptor := "",
                               extension := "jpg" } : FileNamePieces).String,
            descriptor := "", extension := "jpg" } :=
  ⟨⟨by decide, by decide, Or.inl rfl, Or.inl rfl, Or.inl rfl⟩,
    render_parse_roundtrip _ ⟨by decide, by decide, Or.inl rfl, Or.inl rfl, Or.inl rfl⟩⟩

/-- Unfolding step of the integer range builder. -/
theorem intRangeAux_succ (k : Nat) (s : Int) : intRangeAux (k + 1) s = s :: intRangeAux k (s + 1) :=
  rfl


/-- Minor versions after the renumbering loop, by major version: for
the major version whose run the loop is currently continuing (`p`),
the minors continue counting from `pm + 1`; any other major version
`m` present `k` times gets the sentinel when `k = 1` and the dense run
`0..k-1` otherwise. -/
theorem renumberFrom_filter (D : Nat) (Dm : Int → Nat) :
    ∀ (l : List FileNamePieces) (p pm : Int),
      List.Sorted (fun a b => a.major ≤ b.major) l →
      (∀ g ∈ l, p ≤ g.major) →
      ∀ m : Int,
        ((renumberFrom D Dm p pm l).filter (fun f => f.major == m)).map (·.minor) =
          if m = p then intRangeAux (l.countP (fun f => f.major == m)) (pm + 1)
          else if l.countP (fun f => f.major == m) = 1 then [NoMinorVersion]
          else intRangeAux (l.countP (fun f => f.major == m)) 0 := by
  intro l
  induction l with
  | nil =>
    intro p pm _ _ m
    simp only [renumberFrom, List.filter_nil, List.map_nil, List.countP_nil]
    split_ifs with h1 h2 <;> simp_all [intRangeAux]
  | cons f rest ih =>
    intro p pm hsort hple m
    rw [List.sorted_cons] at hsort
    obtain ⟨hf_rest, hsort_rest⟩ := hsort
    have hp_f : p ≤ f.major := hple f (List.mem_cons_self _ _)
    by_cases hfp : f.major = p
    · subst hfp
      have hstep : renumberFrom D Dm f.major pm (f :: rest) =
          { f with majorDigits := D, minorDigits := Dm f.major, minor := pm + 1 }
            :: renumberFrom D Dm f.major (pm + 1) rest := by
        rw [renumberFrom.eq_def]
        simp
      rw [hstep]
      have ihr := ih f.major (pm + 1) hsort_rest hf_rest m
      by_cases hm : m = f.major
      · subst hm
        rw [if_pos rfl, List.filter_cons, if_pos (by simp), List.map_cons, ihr, if_pos rfl,
          List.countP_cons, if_pos (by simp)]
        rw [intRangeAux_succ]
      · have hfm : (f.major == m) = false := by
          rw [beq_eq_false_iff_ne]
          omega
        rw [List.filter_cons, if_neg (by simp [hfm]), ihr, if_neg hm, if_neg hm,
          List.countP_cons]
        simp only [hfm, Bool.false_eq_true, if_false, Nat.add_zero]
    · have hplt : p < f.major := by omega
      cases rest with
      | nil =>
        have hstep : renumberFrom D Dm p pm [f] =
            [{ f with majorDigits := D, minorDigits := Dm f.major, minor := NoMinorVersion }] := by
          rw [renumberFrom.eq_def]
          simp [hfp, renumberFrom]
        rw [hstep]
        by_cases hm : m = f.major
        · subst hm
          simp [List.filter_cons, List.countP_cons, hfp]
        · have hfm : (f.major == m) = false := by
            rw [beq_eq_false_iff_ne]
            omega
          simp only [List.filter_cons, List.countP_cons, List.countP_nil, hfm,
            Bool.false_eq_true, if_false, Nat.add_zero, List.filter_nil, List.map_nil]
          split_ifs <;> simp_all [intRangeAux]
      | cons g rest' =>
        have hfg : f.major ≤ g.major := hf_rest g (List.mem_cons_self _ _)
        have hsg : ∀ x ∈ rest', g.major ≤ x.major := by
          rw [List.sorted_cons] at hsort_rest
          exact hsort_rest.1
        by_cases hg : f.major = g.major
        · have hstep : renumberFrom D Dm p pm (f :: g :: rest') =
              { f with majorDigits := D, minorDigits := Dm f.major, minor := 0 }
                :: renumberFrom D Dm f.major 0 (g :: rest') := by
            rw [renumberFrom.eq_def]
            simp only [if_pos (show f.major ≠ p from hfp),
              if_neg (show ¬ (f.major ≠ g.major) from fun h => h hg)]
          rw [hstep]
          by_cases hm : m = f.major
          · subst hm
            have ihr := ih f.major 0 hsort_rest hf_rest f.major
            rw [if_neg hfp, List.filter_cons, if_pos (by simp), List.map_cons, ihr, if_pos rfl]
            have hge1 : 0 < (g :: rest').countP (fun x => x.major == f.major) :=
              List.countP_pos_iff.mpr ⟨g, List.mem_cons_self _ _, by rw [beq_iff_eq]; omega⟩
            have hsplit : (f :: g :: rest').countP (fun x => x.major == f.major) =
                (g :: rest').countP (fun x => x.major == f.major) + 1 := by
              rw [List.countP_cons]
              simp
            rw [hsplit, if_neg (by omega), intRangeAux_succ]
          · have hfm : (f.major == m) = false := by
              rw [beq_eq_false_iff_ne]
              omega
            have ihr := ih f.major 0 hsort_rest hf_rest m
            have hsplit : (f :: g :: rest').countP (fun x => x.major == m) =
                (g :: rest').countP (fun x => x.major == m) := by
              rw [List.countP_cons]
              simp [hfm]
            rw [List.filter_cons, if_neg (by simp [hfm]), ihr, if_neg hm, hsplit]
            by_cases hmp : m = p
            · rw [if_pos hmp]
              have hc0 : (g :: rest').countP (fun x => x.major == m) = 0 := by
                rw [List.countP_eq_zero]
                intro x hx
                rcases List.mem_cons.mp hx with rfl | hx
                · simp only [beq_iff_eq]; omega
                · have := hsg x hx; simp only [beq_iff_eq]; omega
              rw [hc0, if_neg (by omega)]
              rfl
            · rw [if_neg hmp]
        · have hgf : f.major < g.major := by omega
          have hstep : renumberFrom D Dm p pm (f :: g :: rest') =
              { f with majorDigits := D, minorDigits := Dm f.major, minor := NoMinorVersion }
                :: renumberFrom D Dm f.major NoMinorVersion (g :: rest') := by
            rw [renumberFrom.eq_def]
            simp only [if_pos (show f.major ≠ p from hfp),
              if_pos (show f.major ≠ g.major from hg)]
          rw [hstep]
          by_cases hm : m = f.major
          · subst hm
            have hc0 : (g :: rest').countP (fun x => x.major == f.major) = 0 := by
              rw [List.countP_eq_zero]
              intro x hx
              rcases List.mem_cons.mp hx with rfl | hx
              · simp only [beq_iff_eq]; omega
              · have := hsg x hx; simp only [beq_iff_eq]; omega
            have ihr := ih f.major NoMinorVersion hsort_rest hf_rest f.major
            have hsplit : (f :: g :: rest').countP (fun x => x.major == f.major) =
                (g :: rest').countP (fun x => x.major == f.major) + 1 := by
              rw [List.countP_cons]
              simp
            rw [if_neg hfp, List.filter_cons, if_pos (by simp), List.map_cons, ihr, if_pos rfl,
              hc0, hsplit, hc0, if_pos (by omega)]
            rfl
          · have hfm : (f.major == m) = false := by
              rw [beq_eq_false_iff_ne]
              omega
            have ihr := ih f.major NoMinorVersion hsort_rest hf_rest m
            have hsplit : (f :: g :: rest').countP (fun x => x.major == m) =
                (g :: rest').countP (fun x => x.major == m) := by
              rw [List.countP_cons]
              simp [hfm]
            rw [List.filter_cons, if_neg (by simp [hfm]), ihr, if_neg hm, hsplit]
            by_cases hmp : m = p
            · rw [if_pos hmp]
              have hc0 : (g :: rest').countP (fun x => x.major == m) = 0 := by
                rw [List.countP_eq_zero]
                intro x hx
                rcases List.mem_cons.mp hx with rfl | hx
                · simp only [beq_iff_eq]; omega
                · have := hsg x hx; simp only [beq_iff_eq]; omega
              rw [hc0, if_neg (by omega)]
              rfl
            · rw [if_neg hmp]

/-- The parsed-and-sorted descriptor list is sorted by major version. -/
theorem sorted_major_parseFileNames (names : List String) :
    List.Sorted (fun a b : FileNamePieces => a.major ≤ b.major) (parseFileNames names) := by
  have h := List.sorted_insertionSort fnpLe (names.filterMap fun f => (ParseFileName f).toOption)
  exact h.imp (fun {a b} hab => by rcases hab with h1 | ⟨h1, -⟩ <;> omega)

/-- Every member of the parsed-and-sorted descriptor list comes from a
successful parse and therefore satisfies the planner's field
invariants. -/
theorem mem_parseFileNames_wf (names : List String) (d : FileNamePieces)
    (hd : d ∈ parseFileNames names) : WellFormedPieces d ∧ ∃ f, ParseFileName f = .ok d := by
  have hmem : d ∈ names.filterMap (fun f => (ParseFileName f).toOption) :=
    ((List.perm_insertionSort fnpLe _).mem_iff).mp hd
  rw [List.mem_filterMap] at hmem
  obtain ⟨f, -, hf⟩ := hmem
  have hok : ParseFileName f = .ok d := by
    cases hpf : ParseFileName f with
    | error e =>
      rw [hpf] at hf
      exact absurd hf (by simp [Except.toOption])
    | ok x =>
      rw [hpf] at hf
      simp only [Except.toOption, Option.some.injEq] at hf
      rw [hf]
  obtain ⟨hmaj, horig, hmd, hminor, g1, g2, g3, g4, hdec, hg1ne, hg1d, hg2, hg3, hg4, hmajval,
    hminnone, hminval, hdesc, hext⟩ := parseFileName_ok_fields f d hok
  obtain ⟨hbmaj, hbmin⟩ := parseFileName_ok_bounds f d hok
  refine ⟨⟨hmaj, hbmaj, ?_, ?_, ?_⟩, f, hok⟩
  · rcases hminor with ⟨h1, -⟩ | ⟨h1, -⟩
    · exact Or.inl h1
    · rcases hbmin with h2 | h2
      · exact Or.inl h2
      · exact Or.inr ⟨h1, h2⟩
  · rw [hdesc]
    exact hg3
  · rw [hext]
    exact hg4

/-- Claim C3: after the minor-renumbering pass, for every major version
`m`, the minors of the files with major `m` (read off in sorted list
order) form the sentinel singleton when the group has exactly one
member and the dense run `0..k-1` when it has `k` members — whatever
the input minors were. -/
theorem renumber_minor_dense (names : List String) (m : Int) :
    ((renumberMinorVersions (parseFileNames names)).filter (fun f => f.major == m)).map (·.minor)
      = if (parseFileNames names).countP (fun f => f.major == m) = 1 then [NoMinorVersion]
        else intRangeAux ((parseFileNames names).countP (fun f => f.major == m)) 0 := by
  have hsorted := sorted_major_parseFileNames names
  have hge : ∀ g ∈ parseFileNames names, NoMinorVersion ≤ g.major := by
    intro g hg
    have := (mem_parseFileNames_wf names g hg).1.1
    rw [NoMinorVersion]
    omega
  have h := renumberFrom_filter (computeDigitCounts (parseFileNames names)).1
    (computeDigitCounts (parseFileNames names)).2 (parseFileNames names) NoMinorVersion 0
    hsorted hge m
  rw [renumberMinorVersions, h]
  by_cases hm : m = NoMinorVersion
  · rw [if_pos hm]
    have hc0 : (parseFileNames names).countP (fun f => f.major == m) = 0 := by
      rw [List.countP_eq_zero]
      intro g hg
      have := (mem_parseFileNames_wf names g hg).1.1
      simp only [beq_iff_eq]
      rw [hm, NoMinorVersion]
      omega
    rw [hc0, if_neg (by omega)]
    rfl
  · rw [if_neg hm]

/-- The forward renaming loop never raises a major version: every
output descriptor keeps its major version or receives one of the
unused numbers, strictly below its own (strictness from the guard
`u > files[majorIdx].major` together with the unused numbers being
disjoint from the majors present). -/
theorem assignGroupsAux_forall2 :
    ∀ (fuel : Nat) (us : List Int) (l : List FileNamePieces),
      (∀ u ∈ us, ∀ d ∈ l, d.major ≠ u) →
      List.Forall₂
        (fun orig fin => fin.major = orig.major ∨ (fin.major ∈ us ∧ fin.major < orig.major))
        l (assignGroupsAux fuel us l) := by
  intro fuel
  induction fuel with
  | zero =>
    intro us l _
    rw [assignGroupsAux]
    exact List.forall₂_same.mpr fun x _ => Or.inl rfl
  | succ fuel ih =>
    intro us l hdisj
    match us, l with
    | [], l =>
      rw [assignGroupsAux]
      exact List.forall₂_same.mpr fun x _ => Or.inl rfl
    | u :: urest, [] =>
      rw [assignGroupsAux]
      exact List.Forall₂.nil
    | u :: urest, f :: fs =>
      rw [assignGroupsAux]
      by_cases hguard : u > f.major
      · rw [if_pos hguard]
        exact List.forall₂_same.mpr fun x _ => Or.inl rfl
      · rw [if_neg hguard]
        have hfu : u < f.major := by
          have := hdisj u (List.mem_cons_self _ _) f (List.mem_cons_self _ _)
          omega
        have htail := ih urest (fs.dropWhile fun g => g.major == f.major)
          (fun v hv d hd => hdisj v (List.mem_cons_of_mem _ hv) d
            (List.mem_cons_of_mem _ ((List.dropWhile_sublist _).mem hd)))
        have htail' : List.Forall₂
            (fun orig fin => fin.major = orig.major ∨
              (fin.major ∈ u :: urest ∧ fin.major < orig.major))
            (fs.dropWhile fun g => g.major == f.major)
            (assignGroupsAux fuel urest (fs.dropWhile fun g => g.major == f.major)) :=
          htail.imp fun a b hab => by
            rcases hab with h | ⟨h1, h2⟩
            · exact Or.inl h
            · exact Or.inr ⟨List.mem_cons_of_mem _ h1, h2⟩
        have hhead : List.Forall₂
            (fun orig fin => fin.major = orig.major ∨
              (fin.major ∈ u :: urest ∧ fin.major < orig.major))
            (f :: fs.takeWhile fun g => g.major == f.major)
            ({ f with major := u }
              :: (fs.takeWhile fun g => g.major == f.major).map fun g => { g with major := u }) := by
          refine List.Forall₂.cons (Or.inr ⟨List.mem_cons_self _ _, hfu⟩) ?_
          rw [List.forall₂_map_right_iff]
          refine List.forall₂_same.mpr fun x hx => ?_
          have hxm : x.major = f.major := by
            have := List.mem_takeWhile_imp hx
            rwa [beq_iff_eq] at this
          exact Or.inr ⟨List.mem_cons_self _ _, by rw [hxm]; exact hfu⟩
        have hsplit : f :: fs =
            (f :: fs.takeWhile fun g => g.major == f.major)
              ++ (fs.dropWhile fun g => g.major == f.major) := by
          rw [List.cons_append, List.takeWhile_append_dropWhile]
        rw [hsplit]
        exact List.rel_append hhead htail'

/-- The renumbering pass never touches major versions. -/
theorem renumberFrom_map_major (D : Nat) (Dm : Int → Nat) :
    ∀ (l : List FileNamePieces) (p pm : Int),
      (renumberFrom D Dm p pm l).map (·.major) = l.map (·.major) := by
  intro l
  induction l with
  | nil => intro p pm; rfl
  | cons f rest ih =>
    intro p pm
    rw [renumberFrom.eq_def]
    simp only [List.map_cons]
    rw [ih]

/-- Claim C10: for every input file-name list and every ascending
unused list disjoint from the majors present, the gap-filling pass
maps each descriptor either to its original major version or to a
member of the unused list that is strictly smaller — majors never move
upward, so every rename whose major component changes assigns a
strictly smaller major. -/
theorem gapfill_major_monotone (names : List String) (unused : List Int)
    (hasc : List.Pairwise (· < ·) unused)
    (hdisj : ∀ u ∈ unused, ∀ d ∈ parseFileNames names, d.major ≠ u) :
    List.Forall₂
      (fun orig fin => fin.major = orig.major ∨ (fin.major ∈ unused ∧ fin.major < orig.major))
      (renumberMinorVersions (parseFileNames names))
      (fillGaps (renumberMinorVersions (parseFileNames names)) unused) := by
  set l := renumberMinorVersions (parseFileNames names) with hl
  have hdisj' : ∀ u ∈ unused, ∀ d ∈ l, d.major ≠ u := by
    intro u hu d hd
    have hmem : d.major ∈ l.map (·.major) := List.mem_map_of_mem _ hd
    rw [hl, renumberMinorVersions, renumberFrom_map_major] at hmem
    obtain ⟨orig, horig, heq⟩ := List.mem_map.mp hmem
    rw [← heq]
    exact hdisj u hu orig horig
  have h1 : List.Forall₂
      (fun orig fin => fin.major = orig.major ∨ (fin.major ∈ unused ∧ fin.major < orig.major))
      (l.take (fillStart l unused).toNat) (l.take (fillStart l unused).toNat) :=
    List.forall₂_same.mpr fun x _ => Or.inl rfl
  have h2 := assignGroupsAux_forall2 (l.drop (fillStart l unused).toNat).length unused
    (l.drop (fillStart l unused).toNat)
    (fun u hu d hd => hdisj' u hu d (List.mem_of_mem_drop hd))
  have h3 := List.rel_append h1 h2
  simp only [List.take_append_drop] at h3
  exact h3

/-- Witness for claim C10 on the files `1.jpg, 3.jpg` with unused
majors `0, 2`. -/
theorem gapfill_major_monotone_witness :
    List.Pairwise (· < ·) ([0, 2] : List Int) ∧
      (∀ u ∈ ([0, 2] : List Int), ∀ d ∈ parseFileNames ["1.jpg", "3.jpg"], d.major ≠ u) ∧
      List.Forall₂
        (fun orig fin =>
          fin.major = orig.major ∨ (fin.major ∈ ([0, 2] : List Int) ∧ fin.major < orig.major))
        (renumberMinorVersions (parseFileNames ["1.jpg", "3.jpg"]))
        (fillGaps (renumberMinorVersions (parseFileNames ["1.jpg", "3.jpg"])) [0, 2]) :=
  ⟨by decide, by decide, gapfill_major_monotone _ _ (by decide) (by decide)⟩

/-- Membership in the integer range builder. -/
theorem mem_intRangeAux : ∀ (k : Nat) (s x : Int), x ∈ intRangeAux k s ↔ s ≤ x ∧ x < s + k := by
  intro k
  induction k with
  | zero =>
    intro s x
    simp only [intRangeAux, List.not_mem_nil, false_iff]
    omega
  | succ k ih =>
    intro s x
    simp only [intRangeAux, List.mem_cons, ih]
    omega

/-- Membership in an integer interval. -/
theorem mem_intRange (s t x : Int) : x ∈ intRange s t ↔ s ≤ x ∧ x < t := by
  rw [intRange, mem_intRangeAux]
  omega

/-- The integer range builder is strictly ascending. -/
theorem pairwise_intRangeAux : ∀ (k : Nat) (s : Int), List.Pairwise (· < ·) (intRangeAux k s) := by
  intro k
  induction k with
  | zero => intro s; exact List.Pairwise.nil
  | succ k ih =>
    intro s
    rw [intRangeAux, List.pairwise_cons]
    refine ⟨fun y hy => ?_, ih (s + 1)⟩
    rw [mem_intRangeAux] at hy
    omega

/-- Comparing against a running integer maximum. -/
theorem lt_foldl_max :
    ∀ (ms : List Int) (a x : Int), x < ms.foldl max a ↔ x < a ∨ ∃ y ∈ ms, x < y := by
  intro ms
  induction ms with
  | nil => intro a x; simp
  | cons n rest ih =>
    intro a x
    rw [List.foldl_cons, ih]
    simp only [lt_max_iff, List.mem_cons]
    constructor
    · rintro ((h | h) | ⟨y, hy, hxy⟩)
      · exact Or.inl h
      · exact Or.inr ⟨n, Or.inl rfl, h⟩
      · exact Or.inr ⟨y, Or.inr hy, hxy⟩
    · rintro (h | ⟨y, (rfl | hy), hxy⟩)
      · exact Or.inl (Or.inl h)
      · exact Or.inl (Or.inr hxy)
      · exact Or.inr ⟨y, hy, hxy⟩

/-- Membership in the unused-number accumulation of `validateMajor`:
exactly the integers above `prev` that are absent from the ascending
major list while some major lies above them. -/
theorem mem_validateMajorUnused :
    ∀ (ms : List Int) (prev x : Int), List.Pairwise (· < ·) ms → (∀ y ∈ ms, prev < y) →
      -1 ≤ prev →
      (x ∈ validateMajorUnused prev ms ↔ prev < x ∧ x ∉ ms ∧ ∃ y ∈ ms, x < y) := by
  intro ms
  induction ms with
  | nil =>
    intro prev x _ _ _
    simp [validateMajorUnused]
  | cons n rest ih =>
    intro prev x hsort hgt hprev
    rw [List.pairwise_cons] at hsort
    obtain ⟨hn_rest, hsort_rest⟩ := hsort
    have hn : prev < n := hgt n (List.mem_cons_self _ _)
    have hmax : max (prev + 1) 0 = prev + 1 := by omega
    have hih := ih n x hsort_rest hn_rest (by omega)
    rw [validateMajorUnused]
    by_cases hne : n ≠ prev + 1
    · rw [if_pos hne, hmax, List.mem_append, mem_intRange, hih]
      constructor
      · rintro (⟨h1, h2⟩ | ⟨h1, h2, y, hy, hxy⟩)
        · refine ⟨by omega, ?_, n, List.mem_cons_self _ _, h2⟩
          intro hmem
          rcases List.mem_cons.mp hmem with rfl | hmem
          · omega
          · have := hn_rest x hmem
            omega
        · refine ⟨by omega, ?_, y, List.mem_cons_of_mem _ hy, hxy⟩
          intro hmem
          rcases List.mem_cons.mp hmem with rfl | hmem
          · omega
          · exact h2 hmem
      · rintro ⟨h1, h2, y, hy, hxy⟩
        rcases List.mem_cons.mp hy with rfl | hy
        · exact Or.inl ⟨by omega, by omega⟩
        · by_cases hxn : x < n
          · exact Or.inl ⟨by omega, hxn⟩
          · refine Or.inr ⟨?_, fun hm => h2 (List.mem_cons_of_mem _ hm), y, hy, hxy⟩
            have hxne : x ≠ n := fun h => h2 (h ▸ List.mem_cons_self _ _)
            omega
    · rw [if_neg hne, List.nil_append, hih]
      have hn_eq : n = prev + 1 := by omega
      constructor
      · rintro ⟨h1, h2, y, hy, hxy⟩
        refine ⟨by omega, ?_, y, List.mem_cons_of_mem _ hy, hxy⟩
        intro hm
        rcases List.mem_cons.mp hm with rfl | hm
        · omega
        · exact h2 hm
      · rintro ⟨h1, h2, y, hy, hxy⟩
        have hxn : x ≠ n := fun h => h2 (h ▸ List.mem_cons_self _ _)
        have hx_gt : n < x := by omega
        rcases List.mem_cons.mp hy with rfl | hy
        · exact absurd hxy (by omega)
        · exact ⟨hx_gt, fun hm => h2 (List.mem_cons_of_mem _ hm), y, hy, hxy⟩

/-- The unused-number accumulation of `validateMajor` is strictly
ascending. -/
theorem pairwise_validateMajorUnused :
    ∀ (ms : List Int) (prev : Int), List.Pairwise (· < ·) ms → (∀ y ∈ ms, prev < y) →
      -1 ≤ prev → List.Pairwise (· < ·) (validateMajorUnused prev ms) := by
  intro ms
  induction ms with
  | nil => intro prev _ _ _; exact List.Pairwise.nil
  | cons n rest ih =>
    intro prev hsort hgt hprev
    rw [List.pairwise_cons] at hsort
    obtain ⟨hn_rest, hsort_rest⟩ := hsort
    have hn : prev < n := hgt n (List.mem_cons_self _ _)
    rw [validateMajorUnused, List.pairwise_append]
    refine ⟨?_, ih n hsort_rest hn_rest (by omega), ?_⟩
    · by_cases hne : n ≠ prev + 1
      · rw [if_pos hne]
        exact pairwise_intRangeAux _ _
      · rw [if_neg hne]
        exact List.Pairwise.nil
    · intro a ha b hb
      have hb' := (mem_validateMajorUnused rest n b hsort_rest hn_rest (by omega)).mp hb
      by_cases hne : n ≠ prev + 1
      · rw [if_pos hne] at ha
        rw [mem_intRange] at ha
        omega
      · rw [if_neg hne] at ha
        exact absurd ha (List.not_mem_nil a)

/-- The maximum observed major version (0 when no file parses). -/
def maxMajor (files : List String) : Int := (seenMajors files).foldl max 0

/-- Modelled from the claim wording for comparison purposes: the
integers strictly between 0 and the maximum observed major version
with no file assigned to them. -/
def strictlyBetweenUnused (files : List String) : List Int :=
  (intRange 1 (maxMajor files)).filter fun i => decide (i ∉ seenMajors files)

/-- The sorted distinct majors are strictly ascending and carry the
same members as the distinct majors. -/
theorem sortedMajors_facts (files : List String) :
    List.Pairwise (· < ·) (sortedMajors files) ∧
      (∀ x, x ∈ sortedMajors files ↔ x ∈ seenMajors files) ∧
      ∀ x ∈ sortedMajors files, 0 ≤ x := by
  have hperm := List.perm_insertionSort (α := Int) (· ≤ ·) (seenMajors files)
  have hnodup : (sortedMajors files).Nodup :=
    (hperm.symm).nodup (List.nodup_dedup _)
  have hsorted : List.Sorted (fun a b : Int => a ≤ b) (sortedMajors files) :=
    List.sorted_insertionSort (· ≤ ·) (seenMajors files)
  refine ⟨hsorted.lt_of_le hnodup, fun x => hperm.mem_iff, fun x hx => ?_⟩
  have hx2 : x ∈ seenMajors files := hperm.mem_iff.mp hx
  rw [seenMajors, List.mem_dedup, List.mem_map] at hx2
  obtain ⟨d, hd, rfl⟩ := hx2
  rw [List.mem_filterMap] at hd
  obtain ⟨f, -, hf⟩ := hd
  cases hpf : ParseFileName f with
  | error e =>
    rw [hpf] at hf
    exact absurd hf (by simp [Except.toOption])
  | ok x =>
    rw [hpf] at hf
    simp only [Except.toOption, Option.some.injEq] at hf
    subst hf
    exact (parseFileName_ok_fields f x hpf).1

/-- Two strictly-ascending integer lists with the same members are
equal. -/
theorem sorted_lt_ext (l1 l2 : List Int) (h1 : List.Pairwise (· < ·) l1)
    (h2 : List.Pairwise (· < ·) l2) (hmem : ∀ x, x ∈ l1 ↔ x ∈ l2) : l1 = l2 := by
  have hn1 : l1.Nodup := h1.imp fun hab => by omega
  have hn2 : l2.Nodup := h2.imp fun hab => by omega
  have hs1 : List.Sorted (fun a b : Int => a ≤ b) l1 := h1.imp fun hab => by omega
  have hs2 : List.Sorted (fun a b : Int => a ≤ b) l2 := h2.imp fun hab => by omega
  exact List.eq_of_perm_of_sorted ((List.perm_ext_iff_of_nodup hn1 hn2).mpr hmem) hs1 hs2

/-- Claim C5, counterexample: for the single file `2.jpg` the validator
returns `[0, 1]` — it includes `0`, which is not strictly between `0`
and the maximum observed major version; the claim's strict reading
predicts `[1]`. -/
theorem validator_unused_includes_zero :
    validateFileNamesUnused ["2.jpg"] = [0, 1] ∧ strictlyBetweenUnused ["2.jpg"] = [1] ∧
      ([0, 1] : List Int) ≠ [1] :=
  ⟨by decide, by decide, by decide⟩

/-- Claim C5 (amended): the unused-majors list returned by the
validator is the ascending list of exactly those integers from `0`
(inclusive) up to the maximum observed major version (exclusive) that
have no file assigned to them. -/
theorem validator_unused_characterization (files : List String) :
    validateFileNamesUnused files =
      (intRange 0 (maxMajor files)).filter fun i => decide (i ∉ seenMajors files) := by
  obtain ⟨hsort, hmem_iff, hnonneg⟩ := sortedMajors_facts files
  have hgt : ∀ y ∈ sortedMajors files, (-1 : Int) < y := fun y hy => by
    have := hnonneg y hy
    omega
  have hpair := pairwise_validateMajorUnused (sortedMajors files) (-1) hsort hgt (by omega)
  have heq : validateFileNamesUnused files = validateMajorUnused (-1) (sortedMajors files) := by
    rw [validateFileNamesUnused]
    exact List.Sorted.insertionSort_eq (hpair.imp fun hab => by omega)
  rw [heq]
  refine sorted_lt_ext _ _ hpair
    (List.Pairwise.sublist (List.filter_sublist _) (pairwise_intRangeAux _ _)) fun x => ?_
  rw [mem_validateMajorUnused (sortedMajors files) (-1) x hsort hgt (by omega),
    List.mem_filter, mem_intRange]
  constructor
  · rintro ⟨h1, h2, y, hy, hxy⟩
    have hy0 := hnonneg y hy
    refine ⟨⟨by omega, ?_⟩, ?_⟩
    · rw [maxMajor, lt_foldl_max]
      exact Or.inr ⟨y, (hmem_iff y).mp hy, hxy⟩
    · rw [decide_eq_true_eq]
      intro hx
      exact h2 ((hmem_iff x).mpr hx)
  · rintro ⟨⟨h1, h2⟩, h3⟩
    rw [decide_eq_true_eq] at h3
    rw [maxMajor, lt_foldl_max] at h2
    rcases h2 with h2 | ⟨y, hy, hxy⟩
    · omega
    · exact ⟨by omega, fun hx => h3 ((hmem_iff x).mp hx), y, (hmem_iff y).mpr hy, hxy⟩

/-- The descriptor obtained by re-parsing a rendered name: same values
and capture groups, digit counts reset to the natural decimal widths,
`originalName` reset to the rendered name. -/
def reparsePieces (d : FileNamePieces) : FileNamePieces :=
  { major := d.major, minor := d.minor, majorDigits := (Itoa d.major).length,
    minorDigits := if d.minor = NoMinorVersion then 0 else (Itoa d.minor).length,
    originalName := d.String, descriptor := d.descriptor, extension := d.extension }

/-- Round-trip, packaged through `reparsePieces`. -/
theorem parse_String_reparse (d : FileNamePieces) (h : WellFormedPieces d) :
    ParseFileName d.String = .ok (reparsePieces d) := by
  rw [render_parse_ok d h, reparsePieces]
  congr 1
  simp only [FileNamePieces.mk.injEq, eq_self_iff_true, true_and, and_true]
  refine ⟨(length_Itoa_nonneg d.major h.1).symm, ?_⟩
  by_cases hm : d.minor = NoMinorVersion
  · rw [if_pos hm, if_pos hm]
  · rw [if_neg hm, if_neg hm, length_Itoa_nonneg d.minor (h.2.2.1.resolve_left hm).1]

/-- Parsing the rendered names of a list of well-formed descriptors
recovers the re-parsed descriptors, in order. -/
theorem filterMap_parse_renders :
    ∀ ds : List FileNamePieces, (∀ d ∈ ds, WellFormedPieces d) →
      (ds.map (·.String)).filterMap (fun f => (ParseFileName f).toOption) =
        ds.map reparsePieces := by
  intro ds
  induction ds with
  | nil => intro _; rfl
  | cons d rest ih =>
    intro hwf
    have hps : (ParseFileName (d.String)).toOption = some (reparsePieces d) := by
      rw [parse_String_reparse d (hwf d (List.mem_cons_self _ _))]
      rfl
    simp only [List.map_cons, List.filterMap_cons, hps]
    rw [ih fun x hx => hwf x (List.mem_cons_of_mem _ hx)]

/-- `parseFileNames` on the rendered names of a sorted list of
well-formed descriptors is the re-parsed list, unmoved. -/
theorem parseFileNames_renders (ds : List FileNamePieces)
    (hwf : ∀ d ∈ ds, WellFormedPieces d) (hsorted : List.Sorted fnpLe ds) :
    parseFileNames (ds.map (·.String)) = ds.map reparsePieces := by
  rw [parseFileNames, filterMap_parse_renders ds hwf]
  exact List.Sorted.insertionSort_eq ((List.pairwise_map).mpr (hsorted.imp fun h => h))

/-- The forward renaming loop does nothing when there is no unused
number to hand out. -/
theorem assignGroupsAux_nil_unused :
    ∀ (fuel : Nat) (l : List FileNamePieces), assignGroupsAux fuel [] l = l := by
  intro fuel l
  cases fuel with
  | zero => rfl
  | succ n => rfl

/-- The whole gap-filling pass does nothing when the unused list is
empty. -/
theorem fillGaps_nil_unused (l : List FileNamePieces) : fillGaps l [] = l := by
  rw [fillGaps, assignGroups, assignGroupsAux_nil_unused, List.take_append_drop]

/-- `changedNames` is empty when every descriptor renders back to its
original name. -/
theorem changedNames_eq_nil (l : List FileNamePieces)
    (h : ∀ f ∈ l, f.String = f.originalName) : changedNames l = [] := by
  rw [changedNames, List.filterMap_eq_nil_iff]
  intro f hf
  rw [if_neg fun hne => hne (h f hf).symm]

/-- Two descriptor lists with positionally equal major versions and,
for every major version, equal minor sequences within that major's
group, have positionally equal minor versions. -/
theorem map_minor_eq_of_groups :
    ∀ (l1 l2 : List FileNamePieces),
      l1.map (·.major) = l2.map (·.major) →
      (∀ m : Int, (l1.filter (fun f => f.major == m)).map (·.minor) =
        (l2.filter (fun f => f.major == m)).map (·.minor)) →
      l1.map (·.minor) = l2.map (·.minor) := by
  intro l1
  induction l1 with
  | nil =>
    intro l2 hmaj _
    cases l2 with
    | nil => rfl
    | cons g l2' => exact absurd hmaj (by simp)
  | cons f l1' ih =>
    intro l2 hmaj hgrp
    cases l2 with
    | nil => exact absurd hmaj (by simp)
    | cons g l2' =>
      simp only [List.map_cons, List.cons.injEq] at hmaj
      obtain ⟨hfg, hmaj'⟩ := hmaj
      have hgrp0 := hgrp f.major
      rw [List.filter_cons, List.filter_cons, if_pos (by simp), if_pos (by simp [hfg])] at hgrp0
      simp only [List.map_cons, List.cons.injEq] at hgrp0
      obtain ⟨hminfg, htail0⟩ := hgrp0
      have htails : ∀ m : Int, (l1'.filter (fun x => x.major == m)).map (·.minor) =
          (l2'.filter (fun x => x.major == m)).map (·.minor) := by
        intro m
        by_cases hm : m = f.major
        · rw [hm]
          exact htail0
        · have h1 : (f.major == m) = false := by rw [beq_eq_false_iff_ne]; omega
          have h2 : (g.major == m) = false := by
            rw [beq_eq_false_iff_ne, ← hfg]
            omega
          have hg := hgrp m
          rw [List.filter_cons, List.filter_cons, if_neg (by simp [h1]),
            if_neg (by simp [h2])] at hg
          exact hg
      simp only [List.map_cons, List.cons.injEq]
      exact ⟨hminfg, ih l2' hmaj' htails⟩

/-- The renumbering loop, positionally: every field except the minor
version is carried over unchanged, and the digit counts are set to the
supplied ones. -/
theorem renumberFrom_fields (D : Nat) (Dm : Int → Nat) :
    ∀ (l : List FileNamePieces) (p pm : Int),
      List.Forall₂
        (fun e e' => e'.major = e.major ∧ e'.originalName = e.originalName ∧
          e'.descriptor = e.descriptor ∧ e'.extension = e.extension ∧
          e'.majorDigits = D ∧ e'.minorDigits = Dm e.major)
        l (renumberFrom D Dm p pm l) := by
  intro l
  induction l with
  | nil => intro p pm; exact List.Forall₂.nil
  | cons f rest ih =>
    intro p pm
    exact List.Forall₂.cons ⟨rfl, rfl, rfl, rfl, rfl, rfl⟩ (ih _ _)

/-- A list standing in the positional relation of `renumberFrom_fields`
to `l` and carrying the same minor versions as `l` is exactly `l` with
its digit counts overwritten. -/
theorem renumber_eq_map_of_minor (D : Nat) (Dm : Int → Nat) :
    ∀ (l l' : List FileNamePieces),
      List.Forall₂
        (fun e e' => e'.major = e.major ∧ e'.originalName = e.originalName ∧
          e'.descriptor = e.descriptor ∧ e'.extension = e.extension ∧
          e'.majorDigits = D ∧ e'.minorDigits = Dm e.major)
        l l' →
      l'.map (·.minor) = l.map (·.minor) →
      l' = l.map fun e => { e with majorDigits := D, minorDigits := Dm e.major } := by
  intro l l' h
  induction h with
  | nil => intro _; rfl
  | cons h1 h2 ih =>
    rename_i e e' l1 l2
    intro hmin
    simp only [List.map_cons, List.cons.injEq] at hmin
    obtain ⟨hm, hmin'⟩ := hmin
    obtain ⟨h_major, h_orig, h_desc, h_ext, h_MD, h_mD⟩ := h1
    simp only [List.map_cons, List.cons.injEq]
    refine ⟨?_, ih hmin'⟩
    cases e' with
    | mk a1 a2 a3 a4 a5 a6 a7 =>
      cases e with
      | mk b1 b2 b3 b4 b5 b6 b7 =>
        simp only at h_major h_orig h_desc h_ext h_MD h_mD hm
        subst h_major h_orig h_desc h_ext h_MD h_mD hm
        rfl

/-- Renumbering is the identity on values whose minor versions are
already dense per major group; only the digit counts are
overwritten. -/
theorem renumber_id_of_dense (D : Nat) (Dm : Int → Nat) (l : List FileNamePieces)
    (hsort : List.Sorted (fun a b : FileNamePieces => a.major ≤ b.major) l)
    (hge : ∀ g ∈ l, 0 ≤ g.major)
    (hdense : ∀ m : Int,
      (l.filter (fun f => f.major == m)).map (·.minor) =
        if l.countP (fun f => f.major == m) = 1 then [NoMinorVersion]
        else intRangeAux (l.countP (fun f => f.major == m)) 0) :
    renumberFrom D Dm NoMinorVersion 0 l =
      l.map fun e => { e with majorDigits := D, minorDigits := Dm e.major } := by
  have hge' : ∀ g ∈ l, NoMinorVersion ≤ g.major := by
    intro g hg
    have h0 := hge g hg
    have h99 : NoMinorVersion = -99 := rfl
    omega
  have hminor_eq : (renumberFrom D Dm NoMinorVersion 0 l).map (·.minor) = l.map (·.minor) := by
    apply map_minor_eq_of_groups
    · exact renumberFrom_map_major D Dm l NoMinorVersion 0
    · intro m
      rw [renumberFrom_filter D Dm l NoMinorVersion 0 hsort hge' m, hdense m]
      by_cases hm : m = NoMinorVersion
      · rw [if_pos hm]
        have hc0 : l.countP (fun f => f.major == m) = 0 := by
          rw [List.countP_eq_zero]
          intro g hg
          have h0 := hge g hg
          simp only [beq_iff_eq]
          rw [hm]
          have h99 : NoMinorVersion = -99 := rfl
          omega
        rw [hc0, if_neg (by omega)]
        rfl
      · rw [if_neg hm]
  exact renumber_eq_map_of_minor D Dm l _ (renumberFrom_fields D Dm l NoMinorVersion 0) hminor_eq

/-- Claim C8, counterexample: the planner is not idempotent.  On
`0-0.jpg, 0-10.jpg` the first run pads both minors to two digits and
renumbers `10` to `1`, renaming to `0-00.jpg, 0-01.jpg`; a second run
on those outputs (empty unused list) sees natural widths of one digit
and renames again, to `0-0.jpg, 0-1.jpg` — not the empty rename
list. -/
theorem computeRenames_not_idempotent :
    ComputeRenames ["0-0.jpg", "0-10.jpg"] [] =
        some [⟨"0-0.jpg", "0-00.jpg"⟩, ⟨"0-10.jpg", "0-01.jpg"⟩] ∧
      ComputeRenames ["0-00.jpg", "0-01.jpg"] [] =
        some [⟨"0-00.jpg", "0-0.jpg"⟩, ⟨"0-01.jpg", "0-1.jpg"⟩] ∧
      some [(⟨"0-00.jpg", "0-0.jpg"⟩ : RenameEntry), ⟨"0-01.jpg", "0-1.jpg"⟩] ≠
        some ([] : List RenameEntry) :=
  ⟨by decide, by decide, by decide⟩

/-- Claim C8 (amended): the canonical forms are exactly the fixed
points.  A second run proposes no renames precisely when the first
run's output was already canonical; rendered from descriptors that are
sorted, have dense minors per major group, and carry digit counts
equal to the maxima of the natural widths of their values,
`ComputeRenames` with an empty unused list returns no renames.  (The
unamended claim fails because a first run can leave zero-padded
minors whose widths a second run recomputes, as the counterexample
shows.) -/
theorem computeRenames_fixpoint (ds : List FileNamePieces)
    (hwf : ∀ d ∈ ds, WellFormedPieces d)
    (hsorted : List.Sorted fnpLe ds)
    (hdense : ∀ m : Int,
      (ds.filter (fun f => f.major == m)).map (·.minor) =
        if ds.countP (fun f => f.major == m) = 1 then [NoMinorVersion]
        else intRangeAux (ds.countP (fun f => f.major == m)) 0)
    (hmaj : ∀ d ∈ ds,
      d.majorDigits = ds.foldl (fun a g => Nat.max a (Itoa g.major).length) 0)
    (hmin : ∀ d ∈ ds,
      d.minorDigits = (ds.filter (fun g => g.major == d.major)).foldl
        (fun a g => Nat.max a (if g.minor = NoMinorVersion then 0 else (Itoa g.minor).length))
        0) :
    ComputeRenames (ds.map (·.String)) [] = some [] := by
  have hparse : parseFileNames (ds.map (·.String)) = ds.map reparsePieces :=
    parseFileNames_renders ds hwf hsorted
  have hfilter : ∀ m : Int, (ds.map reparsePieces).filter (fun f => f.major == m) =
      (ds.filter (fun f => f.major == m)).map reparsePieces := by
    intro m
    rw [List.filter_map]
    exact congrArg _ (List.filter_congr fun x _ => rfl)
  have hcount : ∀ m : Int, (ds.map reparsePieces).countP (fun f => f.major == m) =
      ds.countP (fun f => f.major == m) := by
    intro m
    rw [List.countP_eq_length_filter, List.countP_eq_length_filter, hfilter m, List.length_map]
  have hsort_es : List.Sorted (fun a b : FileNamePieces => a.major ≤ b.major)
      (ds.map reparsePieces) := by
    refine (List.pairwise_map).mpr (List.Pairwise.imp ?_ hsorted)
    intro a b hab
    show a.major ≤ b.major
    rcases hab with h | ⟨h, -⟩ <;> omega
  have hge_es : ∀ g ∈ ds.map reparsePieces, 0 ≤ g.major := by
    intro g hg
    obtain ⟨d, hd, rfl⟩ := List.mem_map.mp hg
    exact (hwf d hd).1
  have hdense_es : ∀ m : Int,
      ((ds.map reparsePieces).filter (fun f => f.major == m)).map (·.minor) =
        if (ds.map reparsePieces).countP (fun f => f.major == m) = 1 then [NoMinorVersion]
        else intRangeAux ((ds.map reparsePieces).countP (fun f => f.major == m)) 0 := by
    intro m
    rw [hfilter m, hcount m, List.map_map]
    exact hdense m
  have hD : (computeDigitCounts (ds.map reparsePieces)).1 =
      ds.foldl (fun a g => Nat.max a (Itoa g.major).length) 0 := by
    show (ds.map reparsePieces).foldl (fun a f => Nat.max a f.majorDigits) 0 = _
    rw [List.foldl_map]
    rfl
  have hDm : ∀ x : Int, (computeDigitCounts (ds.map reparsePieces)).2 x =
      (ds.filter (fun g => g.major == x)).foldl
        (fun a g => Nat.max a (if g.minor = NoMinorVersion then 0 else (Itoa g.minor).length))
        0 := by
    intro x
    show ((ds.map reparsePieces).filter (fun f => f.major == x)).foldl
        (fun a f => Nat.max a f.minorDigits) 0 = _
    rw [hfilter x, List.foldl_map]
    rfl
  have hrid := renumber_id_of_dense (computeDigitCounts (ds.map reparsePieces)).1
    (computeDigitCounts (ds.map reparsePieces)).2 (ds.map reparsePieces) hsort_es hge_es hdense_es
  have hnochange : ∀ f ∈ (ds.map reparsePieces).map
      (fun e => { e with
          majorDigits := (computeDigitCounts (ds.map reparsePieces)).1,
          minorDigits := (computeDigitCounts (ds.map reparsePieces)).2 e.major }),
      f.String = f.originalName := by
    intro f hf
    rw [List.map_map] at hf
    obtain ⟨d, hd, rfl⟩ := List.mem_map.mp hf
    show ({ d with
        majorDigits := (computeDigitCounts (ds.map reparsePieces)).1,
        minorDigits := (computeDigitCounts (ds.map reparsePieces)).2 d.major,
        originalName := d.String } : FileNamePieces).String = d.String
    rw [hD, hDm d.major, ← hmaj d hd, ← hmin d hd]
    rfl
  have hguard : ¬ ((parseFileNames (ds.map (·.String))).isEmpty
      && !(List.isEmpty ([] : List Int)) = true) := by simp
  calc ComputeRenames (ds.map (·.String)) []
      = some (changedNames
          (fillGaps (renumberMinorVersions (parseFileNames (ds.map (·.String)))) [])) :=
        if_neg hguard
    _ = some [] := by
        rw [hparse, fillGaps_nil_unused, renumberMinorVersions, hrid,
          changedNames_eq_nil _ hnochange]

/-- The concrete canonical descriptor used to witness the amended claim
C8: the single file `0.jpg` with natural digit counts. -/
def fixpointWitnessPieces : FileNamePieces :=
  { major := 0, minor := -99, majorDigits := 1, minorDigits := 0,
    originalName := "0.jpg", descriptor := "", extension := "jpg" }

/-- Witness for claim C8 (amended) on the canonical singleton list
`0.jpg`. -/
theorem computeRenames_fixpoint_witness :
    (∀ d ∈ [fixpointWitnessPieces], WellFormedPieces d) ∧
      List.Sorted fnpLe [fixpointWitnessPieces] ∧
      (∀ m : Int,
        (([fixpointWitnessPieces].filter (fun f => f.major == m)).map (·.minor)) =
          if [fixpointWitnessPieces].countP (fun f => f.major == m) = 1 then [NoMinorVersion]
          else intRangeAux ([fixpointWitnessPieces].countP (fun f => f.major == m)) 0) ∧
      ComputeRenames ([fixpointWitnessPieces].map (·.String)) [] = some [] := by
  have hwf : ∀ d ∈ [fixpointWitnessPieces], WellFormedPieces d := by
    intro d hd
    rcases List.mem_singleton.mp hd with rfl
    exact ⟨by decide, by decide, Or.inl rfl, Or.inl rfl, Or.inl rfl⟩
  have hsorted : List.Sorted fnpLe [fixpointWitnessPieces] := List.sorted_singleton _
  have hdense : ∀ m : Int,
      (([fixpointWitnessPieces].filter (fun f => f.major == m)).map (·.minor)) =
        if [fixpointWitnessPieces].countP (fun f => f.major == m) = 1 then [NoMinorVersion]
        else intRangeAux ([fixpointWitnessPieces].countP (fun f => f.major == m)) 0 := by
    intro m
    by_cases hm : m = 0
    · subst hm
      decide
    · have h0 : (fixpointWitnessPieces.major == m) = false := by
        rw [beq_eq_false_iff_ne]
        show (0 : Int) ≠ m
        omega
      have hc : [fixpointWitnessPieces].countP (fun f => f.major == m) = 0 := by
        rw [List.countP_cons]
        simp [h0]
      rw [List.filter_cons, if_neg (by simp [h0]), hc]
      simp [intRangeAux]
  exact ⟨hwf, hsorted, hdense,
    computeRenames_fixpoint [fixpointWitnessPieces] hwf hsorted hdense (by decide) (by decide)⟩
